import Mathlib

/-!
Verification development for the luno-backend knowledge-graph subsystem.

The definitions below are a shallow embedding of the Python sources
`knowledge_graph_service.py` (entity/edge extraction and merge pipeline) and
`graph_query_service.py` (graph traversal queries).  Python floats that hold
confidences and edge weights are modelled as exact rationals (`ℚ`); the
document store is modelled as in-memory lists of documents keyed by their id
(Firestore document ids are unique within a collection).  Fields holding wall
clock timestamps are not modelled (no verified claim observes them); where a
timestamp participates in a document id it is passed in as an opaque string.
-/

namespace Luno

/-! ### Python string primitives (ASCII fragment)

`pyLower` models `str.lower`, `isPySpace` the characters matched by the
regex class `\s` (and by `str.strip()`), both restricted to ASCII, which is
the alphabet relevant to all claims. -/

def pyLower (c : Char) : Char :=
  if 'A' ≤ c ∧ c ≤ 'Z' then Char.ofNat (c.toNat + 32) else c

def isPySpace (c : Char) : Bool :=
  c = ' ' || c = '\t' || c = '\n' || c = '\r' || c = '\x0b' || c = '\x0c'

/-- `s.lower()` -/
def pyLowerStr (s : String) : String := String.mk (s.data.map pyLower)

/-- `s.strip()` : drop leading and trailing whitespace. -/
def pyStrip (s : String) : String :=
  String.mk (((s.data.dropWhile (isPySpace ·)).reverse.dropWhile (isPySpace ·)).reverse)

/-- `s.rstrip('s')` : drop every trailing `'s'`.  The source guards this with
`endswith('s')`, which is redundant (`rstrip` of a string not ending in `'s'`
is the identity). -/
def rstripS (s : String) : String :=
  String.mk ((s.data.reverse.dropWhile (· = 's')).reverse)

/-- `s[:n]` -/
def pyTake (n : Nat) (s : String) : String := String.mk (s.data.take n)

/-- `l[-n:]` -/
def lastN {α : Type} (n : Nat) (l : List α) : List α := l.drop (l.length - n)

/-! ### `KnowledgeGraphService._generate_entity_id` -/

/-- Source lines 404-422:
`normalized = re.sub(r'[^a-z0-9\s]', '', name.lower())`,
`normalized = normalized.replace(' ', '_')`,
prefixed with `entity_type.rstrip('s')`.
Note `re.sub` keeps every `\s` character while `.replace(' ', '_')` rewrites
only the literal space, each occurrence separately. -/
def pyNormalize (name : String) : String :=
  let lowered := name.data.map pyLower
  let kept := lowered.filter fun c =>
    (decide ('a' ≤ c) && decide (c ≤ 'z')) ||
    (decide ('0' ≤ c) && decide (c ≤ '9')) || isPySpace c
  String.mk (kept.map fun c => if c = ' ' then '_' else c)

def generateEntityId (name entityType : String) : String :=
  rstripS entityType ++ "_" ++ pyNormalize name

/-- Rewrite each run of consecutive spaces to a single underscore; the flag
records whether the previous character was a space. -/
def collapseSpaces : Bool → List Char → List Char
  | _, [] => []
  | prevSpace, c :: rest =>
    if c = ' ' then
      if prevSpace then collapseSpaces true rest
      else '_' :: collapseSpaces true rest
    else c :: collapseSpaces false rest

/-- The id-generation contract exactly as the spec words it (spec §4.1):
"replace runs of spaces with a single underscore".  Used only to compare the
spec's wording against the source behaviour. -/
def specGenerateEntityId (name entityType : String) : String :=
  let lowered := name.data.map pyLower
  let kept := lowered.filter fun c =>
    (decide ('a' ≤ c) && decide (c ≤ 'z')) ||
    (decide ('0' ≤ c) && decide (c ≤ '9')) || (c = ' ')
  rstripS entityType ++ "_" ++ String.mk (collapseSpaces false kept)

/-! ### Document model -/

/-- The only key of an edge's `attributes` dict that the verified code paths
observe is `prerequisite` (read with
`edge.get('attributes', {}).get('prerequisite', False)` as a truth value);
the remaining type-specific keys are carried opaquely and never inspected. -/
structure EdgeAttributes where
  prerequisite : Bool := false
deriving DecidableEq, Repr

structure Snippet where
  conversationId : String
  snippet : String
deriving DecidableEq, Repr

structure EdgeStats where
  totalEdges : Nat := 0
  incomingEdges : Nat := 0
  outgoingEdges : Nat := 0
  temporalCooccurrence : Nat := 0
  learningPathway : Nat := 0
  emotionalAssociation : Nat := 0
deriving DecidableEq, Repr

/-- Entity `attributes` payload.  Of the type-specific attribute fields the
source writes, only `masteryLevel` (skills) is ever read back (by
`_update_summary`); the others are write-only and not modelled. -/
structure EntityAttrs where
  masteryLevel : String := "emerging"
deriving DecidableEq, Repr

structure Entity where
  id : String
  type : String
  name : String
  strength : ℚ
  mentionCount : Nat
  conversationCount : Nat
  firstConversationId : String
  lastConversationId : String
  attributes : EntityAttrs := {}
  recentObservations : List Snippet
  edgeStats : EdgeStats := {}
deriving DecidableEq, Repr

structure Edge where
  id : String
  edgeType : String
  sourceEntityId : String
  sourceEntityType : String := ""
  sourceEntityName : String := ""
  targetEntityId : String
  targetEntityType : String := ""
  targetEntityName : String := ""
  weight : ℚ
  confidence : ℚ := 0
  observationCount : Nat
  conversationIds : List String := []
  attributes : EdgeAttributes := {}
  evidenceSnippets : List Snippet := []
  status : String := "active"
deriving DecidableEq, Repr

structure ObservedEntity where
  entityId : String
  entityType : String
  entityName : String
  confidence : ℚ
  evidenceSnippet : String
deriving DecidableEq, Repr

structure Observation where
  id : String
  conversationId : String
  entities : List ObservedEntity
deriving DecidableEq, Repr

structure TopTopic where
  id : String
  name : String
  count : Nat
deriving DecidableEq, Repr

structure TopSkill where
  id : String
  name : String
  level : String
deriving DecidableEq, Repr

structure TopInterest where
  id : String
  name : String
  strength : ℚ
deriving DecidableEq, Repr

structure Summary where
  totalEntities : Nat
  topicsCount : Nat
  skillsCount : Nat
  interestsCount : Nat
  conceptsCount : Nat
  traitsCount : Nat
  topTopics : List TopTopic
  topSkills : List TopSkill
  topInterests : List TopInterest
deriving DecidableEq, Repr

/-- The per-`(user, child)` document store: the `entities`, `edges` and
`observations` subcollections plus the single `knowledgeGraph/summary`
document. -/
structure Store where
  entities : List Entity := []
  edges : List Edge := []
  observations : List Observation := []
  summary : Option Summary := none
deriving DecidableEq, Repr

/-! ### Extraction payload (the parsed LLM JSON) -/

/-- One element of the five typed entity arrays.  `Option` fields model dict
keys read with `.get` (absent key = `none`). -/
structure EntityData where
  name : Option String
  confidence : Option ℚ := none
  evidence : String := ""
  masteryLevel : Option String := none
deriving DecidableEq, Repr

/-- One element of the `relationships` array.  The endpoint / type fields are
accessed with `rel[...]` (mandatory) in the source and are total here. -/
structure Relationship where
  sourceEntity : String
  sourceType : String
  targetEntity : String
  targetType : String
  relationType : String
  confidence : Option ℚ := none
  evidence : String := ""
  attributes : EdgeAttributes := {}
deriving DecidableEq, Repr

structure Extraction where
  topics : List EntityData := []
  skills : List EntityData := []
  interests : List EntityData := []
  concepts : List EntityData := []
  personality_traits : List EntityData := []
  relationships : List Relationship := []
deriving DecidableEq, Repr

/-! ### Document store primitives -/

def getEntity (st : Store) (id : String) : Option Entity :=
  st.entities.find? fun e => e.id == id

def getEdge (st : Store) (id : String) : Option Edge :=
  st.edges.find? fun e => e.id == id

/-- Overwrite the documents whose id matches `e.id` (Firestore
`document(id).set` / computed `update`). -/
def replaceEntity (l : List Entity) (e : Entity) : List Entity :=
  l.map fun x => if x.id == e.id then e else x

def replaceEdge (l : List Edge) (e : Edge) : List Edge :=
  l.map fun x => if x.id == e.id then e else x

/-! ### `_create_or_update_entity` (source lines 460-623) -/

/-- The update branch of `_create_or_update_entity` (lines 497-526). -/
def mergedEntity (existing : Entity) (d : EntityData) (conv : String) : Entity :=
  let confidence := d.confidence.getD 0
  { existing with
    lastConversationId := conv
    mentionCount := existing.mentionCount + 1
    strength := max existing.strength confidence
    conversationCount := existing.conversationCount +
      (if conv == existing.lastConversationId then 0 else 1)
    recentObservations :=
      lastN 5 (existing.recentObservations ++
        [⟨conv, pyTake 200 d.evidence⟩]) }

def createOrUpdateEntity (st : Store) (d : EntityData) (entityType : String)
    (conv : String) : Store :=
  match d.name with
  | none => st
  | some name =>
    let confidence := d.confidence.getD 0
    if confidence < 0.7 then st
    else
      let entityId := generateEntityId name entityType
      match getEntity st entityId with
      | some existing =>
        let ents := replaceEntity st.entities (mergedEntity existing d conv)
        { st with entities := ents }
      | none =>
        let newEntity : Entity :=
          { id := entityId
            type := rstripS entityType
            name := name
            strength := confidence
            mentionCount := 1
            conversationCount := 1
            firstConversationId := conv
            lastConversationId := conv
            attributes := { masteryLevel := d.masteryLevel.getD "emerging" }
            recentObservations := [⟨conv, pyTake 200 d.evidence⟩] }
        { st with entities := st.entities ++ [newEntity] }

/-! ### `_create_or_update_edge` and `_update_entity_edge_stats`
(source lines 669-827) -/

/-- Edge id: sorted endpoint ids for the undirected `temporal_cooccurrence`
type, source-then-target for the directed types. -/
def makeEdgeId (edgeType srcId tgtId : String) : String :=
  if edgeType == "temporal_cooccurrence" then
    if srcId ≤ tgtId then edgeType ++ "_" ++ srcId ++ "_" ++ tgtId
    else edgeType ++ "_" ++ tgtId ++ "_" ++ srcId
  else edgeType ++ "_" ++ srcId ++ "_" ++ tgtId

def bumpTypeCounter (edgeType : String) (s : EdgeStats) : EdgeStats :=
  if edgeType == "temporal_cooccurrence" then
    { s with temporalCooccurrence := s.temporalCooccurrence + 1 }
  else if edgeType == "learning_pathway" then
    { s with learningPathway := s.learningPathway + 1 }
  else if edgeType == "emotional_association" then
    { s with emotionalAssociation := s.emotionalAssociation + 1 }
  else s

/-- `_update_entity_edge_stats`: a Firestore `update` on a missing document
raises, the exception is caught by this method's own handler, and (because
both endpoint updates share one `try`) the second update is not attempted. -/
def withEntities (st : Store) (l : List Entity) : Store :=
  { st with entities := l }

def bumpStats (edgeType : String) (incoming outgoing : Bool) (e : Entity) :
    Entity :=
  let s0 := e.edgeStats
  let s1 : EdgeStats :=
    { s0 with
      totalEdges := s0.totalEdges + 1
      incomingEdges := s0.incomingEdges + (if incoming then 1 else 0)
      outgoingEdges := s0.outgoingEdges + (if outgoing then 1 else 0) }
  { e with edgeStats := bumpTypeCounter edgeType s1 }

/-- The target-endpoint half of `_update_entity_edge_stats` (it runs inside
the same `try`, so it is only reached when the source update succeeded). -/
def statsTargetPhase (st1 : Store) (tgtId edgeType : String)
    (incoming outgoing : Bool) : Store :=
  match getEntity st1 tgtId with
  | none => st1
  | some te =>
    withEntities st1 (replaceEntity st1.entities
      (bumpStats edgeType incoming outgoing te))

def updateEntityEdgeStats (st : Store) (srcId tgtId edgeType : String) : Store :=
  if edgeType == "temporal_cooccurrence" then
    match getEntity st srcId with
    | none => st
    | some se =>
      statsTargetPhase
        (withEntities st (replaceEntity st.entities
          (bumpStats edgeType false false se))) tgtId edgeType false false
  else
    match getEntity st srcId with
    | none => st
    | some se =>
      statsTargetPhase
        (withEntities st (replaceEntity st.entities
          (bumpStats edgeType false true se))) tgtId edgeType true false

/-- The update branch of `_create_or_update_edge` (lines 707-736): moving
average weight, incremented observation count, capped conversation id and
evidence snippet lists. -/
def mergedEdge (e : Edge) (conv : String) (confidence : ℚ)
    (evidence : String) : Edge :=
  let newWeight :=
    (e.weight * (e.observationCount : ℚ) + confidence) /
      ((e.observationCount : ℚ) + 1)
  let convIds :=
    if e.conversationIds.contains conv then e.conversationIds
    else e.conversationIds ++ [conv]
  { e with
    weight := newWeight
    observationCount := e.observationCount + 1
    conversationIds := lastN 10 convIds
    evidenceSnippets :=
      lastN 3 (e.evidenceSnippets ++ [⟨conv, pyTake 200 evidence⟩]) }

def createOrUpdateEdge (st : Store) (conv : String)
    (srcId srcType srcName tgtId tgtType tgtName edgeType : String)
    (confidence : ℚ) (evidence : String) (attrs : EdgeAttributes) : Store :=
  let edgeId := makeEdgeId edgeType srcId tgtId
  let st' :=
    match getEdge st edgeId with
    | some e =>
      { st with edges := replaceEdge st.edges (mergedEdge e conv confidence evidence) }
    | none =>
      let newEdge : Edge :=
        { id := edgeId
          edgeType := edgeType
          sourceEntityId := srcId
          sourceEntityType := srcType
          sourceEntityName := srcName
          targetEntityId := tgtId
          targetEntityType := tgtType
          targetEntityName := tgtName
          weight := confidence
          confidence := confidence
          observationCount := 1
          conversationIds := [conv]
          attributes := attrs
          evidenceSnippets := [⟨conv, pyTake 200 evidence⟩] }
      { st with edges := st.edges ++ [newEdge] }
  updateEntityEdgeStats st' srcId tgtId edgeType

/-! ### `_extract_and_store_edges` (source lines 625-667) -/

/-- The per-run entity-name map built during the entity phase. -/
def EMap : Type := String → Option String

def relKey (entityType name : String) : String :=
  entityType ++ "_" ++ pyStrip (pyLowerStr name)

def storeRelationship (conv : String) (emap : EMap) (st : Store)
    (rel : Relationship) : Store :=
  if rel.confidence.getD 0 < 0.7 then st
  else
    let sourceKey := relKey rel.sourceType rel.sourceEntity
    let targetKey := relKey rel.targetType rel.targetEntity
    match emap sourceKey, emap targetKey with
    | some sid, some tid =>
      createOrUpdateEdge st conv sid rel.sourceType rel.sourceEntity
        tid rel.targetType rel.targetEntity rel.relationType
        (rel.confidence.getD 0) rel.evidence rel.attributes
    | _, _ => st

def extractAndStoreEdges (st : Store) (conv : String)
    (rels : List Relationship) (emap : EMap) : Store :=
  rels.foldl (storeRelationship conv emap) st

/-! ### Entity phase of `extract_and_store` (source lines 70-89)

Note: the mapping `entities_map[key] = entity_id` is recorded for every
entity that has a name, with no confidence test (the confidence floor lives
inside `_create_or_update_entity` only). -/

def entityPhaseStep (conv entityType : String) (acc : Store × EMap)
    (d : EntityData) : Store × EMap :=
  let st := createOrUpdateEntity acc.1 d entityType conv
  match d.name with
  | some name =>
    let key := relKey (rstripS entityType) name
    let eid := generateEntityId name entityType
    (st, fun k => if k == key then some eid else acc.2 k)
  | none => (st, acc.2)

def entityTypePhase (conv entityType : String) (items : List EntityData)
    (acc : Store × EMap) : Store × EMap :=
  items.foldl (entityPhaseStep conv entityType) acc

def entityPhase (st : Store) (conv : String) (x : Extraction) : Store × EMap :=
  let a0 : Store × EMap := (st, fun _ => none)
  let a1 := entityTypePhase conv "topics" x.topics a0
  let a2 := entityTypePhase conv "skills" x.skills a1
  let a3 := entityTypePhase conv "interests" x.interests a2
  let a4 := entityTypePhase conv "concepts" x.concepts a3
  entityTypePhase conv "personality_traits" x.personality_traits a4

/-! ### `_create_observation` (source lines 829-882) -/

def observedOfType (entityType : String) (items : List EntityData) :
    List ObservedEntity :=
  items.filterMap fun d =>
    match d.name with
    | some n =>
      if 0.7 ≤ d.confidence.getD 0 then
        some { entityId := generateEntityId n entityType
               entityType := rstripS entityType
               entityName := n
               confidence := d.confidence.getD 0.7
               evidenceSnippet := pyTake 200 d.evidence }
      else none
    | none => none

def createObservation (st : Store) (conv nowStr : String) (x : Extraction) :
    Store :=
  let obs : Observation :=
    { id := "obs_" ++ conv ++ "_" ++ nowStr
      conversationId := conv
      entities :=
        observedOfType "topics" x.topics ++
        observedOfType "skills" x.skills ++
        observedOfType "interests" x.interests ++
        observedOfType "concepts" x.concepts ++
        observedOfType "personality_traits" x.personality_traits }
  if (st.observations.find? fun o => o.id == obs.id).isSome then
    let obss := st.observations.map (fun o => if o.id == obs.id then obs else o)
    { st with observations := obss }
  else
    { st with observations := st.observations ++ [obs] }

/-! ### `_update_summary` (source lines 884-972) -/

/-- Stable insertion sort; `keep f e = true` means an already placed `f`
stays in front of the element `e` being inserted.  With `keep f e` set to
"`f`'s key is strictly better than `e`'s key" this reproduces Python's
stable `list.sort`. -/
def insertKeep {α : Type} (keep : α → α → Bool) (e : α) : List α → List α
  | [] => [e]
  | f :: fs => if keep f e then f :: insertKeep keep e fs else e :: f :: fs

def stableSort {α : Type} (keep : α → α → Bool) : List α → List α
  | [] => []
  | e :: es => insertKeep keep e (stableSort keep es)

def updateSummary (st : Store) : Store :=
  let es := st.entities
  let topics := (es.filter fun e => e.type == "topic").map
    fun e => (⟨e.id, e.name, e.mentionCount⟩ : TopTopic)
  let skills := (es.filter fun e => e.type == "skill").map
    fun e => (⟨e.id, e.name, e.attributes.masteryLevel⟩ : TopSkill)
  let interests := (es.filter fun e => e.type == "interest").map
    fun e => (⟨e.id, e.name, e.strength⟩ : TopInterest)
  let summary : Summary :=
    { totalEntities := es.length
      topicsCount := topics.length
      skillsCount := skills.length
      interestsCount := interests.length
      conceptsCount := (es.filter fun e => e.type == "concept").length
      traitsCount := (es.filter fun e => e.type == "personality_trait").length
      topTopics :=
        (stableSort (fun f e => decide (e.count < f.count)) topics).take 5
      topSkills :=
        (stableSort (fun f e => decide (f.name < e.name)) skills).take 5
      topInterests :=
        (stableSort (fun f e => decide (e.strength < f.strength)) interests).take 5 }
  { st with summary := some summary }

/-! ### `extract_and_store` (source lines 39-109)

`_call_extraction_llm` returns `None` when the LLM call raises or its output
is not valid JSON; `extract_and_store` then returns before any write.  (A
parsed-but-empty response dict is falsy in Python and takes the same early
return; both failure shapes are the `none` case here.)  The surrounding
`try/except` means the method never raises to its caller, which the totality
of this function models. -/

def extractAndStore (childExists : Bool) (extracted : Option Extraction)
    (st : Store) (conv nowStr : String) : Store :=
  if !childExists then st
  else
    match extracted with
    | none => st
    | some data =>
      let a := entityPhase st conv data
      let st2 := extractAndStoreEdges a.1 conv data.relationships a.2
      let st3 := createObservation st2 conv nowStr data
      updateSummary st3

/-- `_call_extraction_llm` composed with `extract_and_store`: `raw = none`
models a failed LLM call, `parse` models `json.loads` (returning `none` on a
`JSONDecodeError`). -/
def extractAndStoreLLM (parse : String → Option Extraction)
    (childExists : Bool) (raw : Option String) (st : Store)
    (conv nowStr : String) : Store :=
  extractAndStore childExists (raw.bind parse) st conv nowStr

/-! ### `GraphQueryService._get_entity_edges` (source lines 472-516)

Two Firestore queries (entity as source, then entity as target), each with
the `weight >= min_weight` filter only when `min_weight > 0`, a client-side
edge-type filter, and deduplication on the edge's `id` field.  Stream order
is modelled as list order. -/

def passesTypeFilter (edgeTypes : Option (List String)) (e : Edge) : Bool :=
  match edgeTypes with
  | none => true
  | some ts => ts.contains e.edgeType

def weightOk (minWeight : ℚ) (e : Edge) : Bool :=
  !(decide (0 < minWeight)) || decide (minWeight ≤ e.weight)

def dedupStep (edgeTypes : Option (List String))
    (acc : List Edge × List String) (e : Edge) : List Edge × List String :=
  if passesTypeFilter edgeTypes e then
    if acc.2.contains e.id then acc else (acc.1 ++ [e], acc.2 ++ [e.id])
  else acc

def getEntityEdges (st : Store) (entityId : String)
    (edgeTypes : Option (List String)) (minWeight : ℚ) : List Edge :=
  let q1 := st.edges.filter fun e =>
    e.sourceEntityId == entityId && weightOk minWeight e
  let q2 := st.edges.filter fun e =>
    e.targetEntityId == entityId && weightOk minWeight e
  ((q1 ++ q2).foldl (dedupStep edgeTypes) ([], [])).1

/-- The other end of an edge as `get_related_entities` computes it. -/
def neighborOf (e : Edge) (cur : String) : String :=
  if e.sourceEntityId == cur then e.targetEntityId else e.sourceEntityId

/-! ### `get_related_entities` (source lines 30-107)

The Python `entities_by_depth` is a `defaultdict(list)` receiving appends in
discovery order; it is modelled as the flat discovery list `found` of
(entity, depth) pairs, from which bucket `d` is recovered by filtering.  The
`while queue` loop is modelled with explicit fuel; `2 * |edges| + 1` is
proven sufficient, every discovery being a fresh edge endpoint. -/

structure RelatedResult where
  found : List (Entity × Nat)
  edges : List Edge
  totalEntities : Nat
deriving DecidableEq, Repr

def RelatedResult.bucket (r : RelatedResult) (d : Nat) : List Entity :=
  (r.found.filter fun p => p.2 == d).map (·.1)

/-- Body of `for edge in edges` inside the BFS loop. -/
def processEdges (st : Store) (cur : String) (d : Nat) :
    List Edge → List (String × Nat) → List String → List (Entity × Nat) →
    List Edge →
    List (String × Nat) × List String × List (Entity × Nat) × List Edge
  | [], q, v, fd, ed => (q, v, fd, ed)
  | e :: es, q, v, fd, ed =>
    let nb := neighborOf e cur
    if v.contains nb then processEdges st cur d es q v fd ed
    else
      match getEntity st nb with
      | none => processEdges st cur d es q v fd ed
      | some ent =>
        processEdges st cur d es (q ++ [(nb, d + 1)]) (v ++ [nb])
          (fd ++ [(ent, d + 1)]) (ed ++ [e])

def bfsAux (st : Store) (edgeTypes : Option (List String)) (minWeight : ℚ)
    (maxDepth : Nat) :
    Nat → List (String × Nat) → List String → List (Entity × Nat) →
    List Edge → Option (List (Entity × Nat) × List Edge × Nat)
  | _, [], v, fd, ed => some (fd, ed, v.length)
  | 0, _ :: _, _, _, _ => none
  | fuel + 1, (cur, d) :: rest, v, fd, ed =>
    if maxDepth ≤ d then bfsAux st edgeTypes minWeight maxDepth fuel rest v fd ed
    else
      let es := getEntityEdges st cur edgeTypes minWeight
      let s := processEdges st cur d es rest v fd ed
      bfsAux st edgeTypes minWeight maxDepth fuel s.1 s.2.1 s.2.2.1 s.2.2.2

/-- Initial bucket content: the starting entity at depth 0, when it
exists. -/
def startFound (st : Store) (entityId : String) : List (Entity × Nat) :=
  match getEntity st entityId with
  | some e => [(e, 0)]
  | none => []

def relatedEntitiesAux (st : Store) (entityId : String) (maxDepth : Nat)
    (edgeTypes : Option (List String)) (minWeight : ℚ) :
    Option (List (Entity × Nat) × List Edge × Nat) :=
  bfsAux st edgeTypes minWeight maxDepth (2 * st.edges.length + 1)
    [(entityId, 0)] [entityId] (startFound st entityId) []

def getRelatedEntities (st : Store) (entityId : String) (maxDepth : Nat)
    (edgeTypes : Option (List String)) (minWeight : ℚ) : RelatedResult :=
  match relatedEntitiesAux st entityId maxDepth edgeTypes minWeight with
  | some r => ⟨r.1, r.2.1, r.2.2⟩
  | none => ⟨[], [], 0⟩

/-- One traversal step of `get_related_entities`: some stored edge passes
the type and weight filters, touches `u`, its computed neighbour is `v`, and
`v`'s entity document exists (the code only discovers existing entities). -/
def relStep (st : Store) (edgeTypes : Option (List String)) (minWeight : ℚ)
    (u v : String) : Prop :=
  (getEntity st v).isSome = true ∧
  ∃ e ∈ st.edges, passesTypeFilter edgeTypes e = true ∧ weightOk minWeight e = true ∧
    (e.sourceEntityId = u ∨ e.targetEntityId = u) ∧ neighborOf e u = v

/-- `reachIn st ts mw s d v`: there is a walk of exactly `d` traversal steps
from `s` to `v`.  The hop distance of `v` is the least such `d`. -/
def reachIn (st : Store) (edgeTypes : Option (List String)) (minWeight : ℚ)
    (s : String) : Nat → String → Prop
  | 0, v => v = s
  | d + 1, v => ∃ u, reachIn st edgeTypes minWeight s d u ∧
      relStep st edgeTypes minWeight u v

/-! ### `get_prerequisite_chain` (source lines 326-389) -/

def prereqEdgesInto (st : Store) (cur : String) : List Edge :=
  (st.edges.filter fun e =>
    e.edgeType == "learning_pathway" && e.targetEntityId == cur).filter
    fun e => e.attributes.prerequisite

/-- `prereq_edges.sort(key=lambda e: e['weight'], reverse=True)`: a stable
descending sort (see `stableSort`). -/
def sortByWeightDesc (l : List Edge) : List Edge :=
  stableSort (fun f e => decide (e.weight < f.weight)) l

def gpcAux (st : Store) : Nat → String → List String → List Entity → List Entity
  | 0, _, _, acc => acc
  | n + 1, cur, visited, acc =>
    match (sortByWeightDesc (prereqEdgesInto st cur)).head? with
    | none => acc
    | some best =>
      let pid := best.sourceEntityId
      if visited.contains pid then acc
      else
        match getEntity st pid with
        | none => acc
        | some pe => gpcAux st n pid (visited ++ [pid]) (pe :: acc)

def getPrerequisiteChain (st : Store) (entityId : String) (maxDepth : Nat) :
    List Entity :=
  gpcAux st maxDepth entityId [entityId] []

/-- The greedy choice `get_prerequisite_chain` makes at entity `y`: the head
of its prerequisite in-edge list sorted by weight (descending, stable). -/
def bestPrereqSource (st : Store) (y : String) : Option String :=
  ((sortByWeightDesc (prereqEdgesInto st y)).head?).map (·.sourceEntityId)

/-- `a` is the entity the chain walk moves to from `b`: the source of the
highest-weight prerequisite edge into `b`. -/
def prereqLink (st : Store) (a b : String) : Prop :=
  bestPrereqSource st b = some a

/-! ### `find_learning_path` (source lines 391-450) -/

def outgoingLearningEdges (st : Store) (cur : String) : List Edge :=
  st.edges.filter fun e =>
    e.edgeType == "learning_pathway" && e.sourceEntityId == cur

/-- Body of `for edge_doc in edges` inside the path BFS. -/
def flpProcess (path : List String) :
    List Edge → List (String × List String) → List String →
    List (String × List String) × List String
  | [], q, v => (q, v)
  | e :: es, q, v =>
    let nxt := e.targetEntityId
    if v.contains nxt then flpProcess path es q v
    else flpProcess path es (q ++ [(nxt, path ++ [nxt])]) (v ++ [nxt])

def flpAux (st : Store) (target : String) (maxDepth : Nat) :
    Nat → List (String × List String) → List String →
    Option (Option (List String))
  | _, [], _ => some none
  | 0, _ :: _, _ => none
  | fuel + 1, (cur, path) :: rest, visited =>
    if maxDepth < path.length then flpAux st target maxDepth fuel rest visited
    else if cur == target then some (some path)
    else
      let es := outgoingLearningEdges st cur
      let s := flpProcess path es rest visited
      flpAux st target maxDepth fuel s.1 s.2

def findLearningPathIds (st : Store) (startId targetId : String)
    (maxDepth : Nat) : Option (List String) :=
  match flpAux st targetId maxDepth (2 * st.edges.length + 1)
      [(startId, [startId])] [startId] with
  | some r => r
  | none => none

def findLearningPath (st : Store) (startId targetId : String)
    (maxDepth : Nat) : Option (List Entity) :=
  (findLearningPathIds st startId targetId maxDepth).map
    fun path => path.filterMap (getEntity st)

/-- One directed `learning_pathway` hop (any attributes, no weight filter),
as `find_learning_path` traverses it. -/
def lpStep (st : Store) (u v : String) : Prop :=
  ∃ e ∈ st.edges, e.edgeType = "learning_pathway" ∧
    e.sourceEntityId = u ∧ e.targetEntityId = v

/-- `ids` is a directed learning path from `s` to `t` stored in `st`. -/
def isLearningPath (st : Store) (ids : List String) (s t : String) : Prop :=
  ids.head? = some s ∧ ids.getLast? = some t ∧ ids.Chain' (lpStep st)

/-! ### Concrete stores and runs used by the claim instances -/

def mkEnt (id : String) : Entity :=
  { id := id, type := "topic", name := id, strength := 8/10, mentionCount := 1
    conversationCount := 1, firstConversationId := "c0"
    lastConversationId := "c0", recentObservations := [] }

def mkCoEdge (a b : String) : Edge :=
  { id := "temporal_cooccurrence_" ++ a ++ "_" ++ b
    edgeType := "temporal_cooccurrence", sourceEntityId := a
    targetEntityId := b, weight := 8/10, observationCount := 1 }

def mkLpEdge (a b : String) (w : ℚ) : Edge :=
  { id := "learning_pathway_" ++ a ++ "_" ++ b
    edgeType := "learning_pathway", sourceEntityId := a, targetEntityId := b
    weight := w, observationCount := 1 }

def mkLpPre (a b : String) (w : ℚ) : Edge :=
  { mkLpEdge a b w with attributes := ⟨true⟩ }

/-- Chain graph A–B–C–D over undirected co-occurrence edges. -/
def chainStore : Store :=
  { entities := [mkEnt "A", mkEnt "B", mkEnt "C", mkEnt "D"]
    edges := [mkCoEdge "A" "B", mkCoEdge "B" "C", mkCoEdge "C" "D"] }

/-- A single directed learning-pathway edge A→B. -/
def lpStore : Store :=
  { entities := [mkEnt "A", mkEnt "B"], edges := [mkLpEdge "A" "B" (8/10)] }

/-- Directed learning-pathway chain A→B→C. -/
def lpStore3 : Store :=
  { entities := [mkEnt "A", mkEnt "B", mkEnt "C"]
    edges := [mkLpEdge "A" "B" (8/10), mkLpEdge "B" "C" (8/10)] }

/-- Two prerequisite edges into X with weights 0.9 and 0.5. -/
def preStore : Store :=
  { entities := [mkEnt "X", mkEnt "W9", mkEnt "W5"]
    edges := [mkLpPre "W9" "X" (9/10), mkLpPre "W5" "X" (5/10)] }

/-- Extraction run with a below-floor source entity (Math, 0.5), an
above-floor target entity (Science, 0.9) and an above-floor relationship
between them. -/
def c4Extraction : Extraction :=
  { topics := [{ name := some "Math", confidence := some (5/10) },
               { name := some "Science", confidence := some (9/10) }]
    relationships := [{ sourceEntity := "Math", sourceType := "topic"
                        targetEntity := "Science", targetType := "topic"
                        relationType := "learning_pathway"
                        confidence := some (8/10) }] }

def c4Run : Store := extractAndStore true (some c4Extraction) {} "c1" "t0"

/-- An entity document already stored at strength 0.9. -/
def c7Entity : Entity := { mkEnt "topic_dinosaurs" with strength := 9/10 }

def c7Store : Store := { entities := [c7Entity] }

def c10Data : EntityData := { name := some "Dinosaurs", confidence := some (8/10) }

/-- The entity document stored by `c10Run`. -/
def c10Entity : Entity :=
  { id := "topic_dinosaurs", type := "topic", name := "Dinosaurs"
    strength := 8/10, mentionCount := 3, conversationCount := 3
    firstConversationId := "A", lastConversationId := "A"
    recentObservations := [⟨"A", ""⟩, ⟨"B", ""⟩, ⟨"A", ""⟩] }

/-- Create in conversation A, merge from B, then merge from A again. -/
def c10Run : Store :=
  createOrUpdateEntity
    (createOrUpdateEntity
      (createOrUpdateEntity {} c10Data "topics" "A") c10Data "topics" "B")
    c10Data "topics" "A"

/-- An edge created with confidence 0.8, then merged with confidence 0.4. -/
def c1Run : Store :=
  createOrUpdateEdge
    (createOrUpdateEdge {} "c1" "topic_a" "topic" "A" "concept_b" "concept"
      "B" "learning_pathway" (8/10) "" {})
    "c2" "topic_a" "topic" "A" "concept_b" "concept" "B" "learning_pathway"
    (4/10) "" {}

/-! ### BFS ghost state and invariant for `get_related_entities`

`P` is the (ghost) list of queue entries already popped, in pop order; the
queue discipline of the source loop makes `P ++ Q` the full history of enqueued
entries.  The invariant ties every entry's recorded depth to the hop
distance of its node in the `relStep` graph. -/

def edgeEndpoints (st : Store) : Finset String :=
  st.edges.foldr
    (fun e acc => insert e.sourceEntityId (insert e.targetEntityId acc)) ∅

def bfsUniv (st : Store) (s : String) : Finset String :=
  insert s (edgeEndpoints st)

/-- The loop invariant, with `E` the entries whose node has been fully
expanded (`E = P` between iterations; during the edge loop of one iteration
`E` lags one entry behind the popped list). -/
structure BfsInv (st : Store) (ts : Option (List String)) (mw : ℚ)
    (s : String) (maxD : Nat) (P Q : List (String × Nat)) (V : List String)
    (F : List (Entity × Nat)) (E : List (String × Nat)) : Prop where
  conserve : V = (P ++ Q).map Prod.fst
  vnodup : V.Nodup
  start_mem : (s, 0) ∈ P ++ Q
  init_q : P = [] → Q = [(s, 0)]
  found_eq : F.map (fun p => (p.1.id, p.2)) =
    (P ++ Q).filter (fun q => (getEntity st q.1).isSome)
  found_ent : ∀ p ∈ F, getEntity st p.1.id = some p.1
  dist_exact : ∀ q ∈ P ++ Q, reachIn st ts mw s q.2 q.1 ∧
    ∀ d' < q.2, ¬ reachIn st ts mw s d' q.1
  depth_sorted : List.Sorted (· ≤ ·) ((P ++ Q).map Prod.snd)
  two_level : ∀ q ∈ Q, ∀ p ∈ P.getLast?, q.2 ≤ p.2 + 1
  expanded : ∀ q ∈ E, q.2 < maxD →
    ∀ v, relStep st ts mw q.1 v → v ∈ V
  frontier : ∀ v d', reachIn st ts mw s d' v →
    (∀ e < d', ¬ reachIn st ts mw s e v) →
    ∀ q ∈ P ++ Q, d' < q.2 → v ∈ V
  depth_le : ∀ q ∈ P ++ Q, q.2 ≤ maxD

/-! ### Ghost state and invariant for `find_learning_path`

Entries carry the full path from the start (the code's
`queue.append((next_id, path + [next_id]))`); an entry's path length is the
minimal node count over stored learning paths to its node. -/

structure LpInv (st : Store) (s t : String) (maxD : Nat)
    (P Q : List (String × List String)) (V : List String)
    (E : List (String × List String)) : Prop where
  conserve : V = (P ++ Q).map Prod.fst
  vnodup : V.Nodup
  start_mem : (s, [s]) ∈ P ++ Q
  init_q : P = [] → Q = [(s, [s])]
  path_ok : ∀ q ∈ P ++ Q, isLearningPath st q.2 s q.1
  path_min : ∀ q ∈ P ++ Q, ∀ p2, isLearningPath st p2 s q.1 →
    q.2.length ≤ p2.length
  len_sorted : List.Sorted (· ≤ ·) ((P ++ Q).map (fun q => q.2.length))
  two_level : ∀ q ∈ Q, ∀ p ∈ P.getLast?, q.2.length ≤ p.2.length + 1
  expanded : ∀ q ∈ E, q.2.length ≤ maxD → q.1 ≠ t →
    ∀ v, lpStep st q.1 v → v ∈ V
  frontier : ∀ v p2, isLearningPath st p2 s v →
    (∀ p3, isLearningPath st p3 s v → p2.length ≤ p3.length) →
    ∀ q ∈ P ++ Q, p2.length < q.2.length → v ∈ V

/-! ## Helper lemmas -/

theorem q07 : (0.7 : ℚ) = 7/10 := by norm_num

theorem find?_key_eq {α : Type} {key : α → String} {l : List α} {i : String}
    {e : α} (h : l.find? (fun x => key x == i) = some e) : key e = i := by
  have := List.find?_some h
  simpa using this

theorem find?_replace {α : Type} (key : α → String)
    (l : List α) (i : String) (e e' : α)
    (h : l.find? (fun x => key x == i) = some e) (hk : key e' = i) :
    (l.map fun x => if key x == key e' then e' else x).find?
      (fun x => key x == i) = some e' := by
  induction l with
  | nil => simp at h
  | cons a as ih =>
    rcases eq_or_ne (key a) i with hb | hb
    · have hmap : (a :: as).map (fun x => if key x == key e' then e' else x) =
          e' :: as.map (fun x => if key x == key e' then e' else x) := by
        simp [hb, hk]
      rw [hmap, List.find?_cons_of_pos _ (by simp [hk])]
    · have h' : as.find? (fun x => key x == i) = some e := by
        rw [List.find?_cons_of_neg _ (by simp [hb])] at h
        exact h
      have hmap : (a :: as).map (fun x => if key x == key e' then e' else x) =
          a :: as.map (fun x => if key x == key e' then e' else x) := by
        simp [hk, hb]
      rw [hmap, List.find?_cons_of_neg _ (by simp [hb])]
      exact ih h'

theorem edges_statsTargetPhase (st1 : Store) (b t : String) (i o : Bool) :
    (statsTargetPhase st1 b t i o).edges = st1.edges := by
  unfold statsTargetPhase
  split <;> rfl

theorem edges_updateEntityEdgeStats (st : Store) (a b t : String) :
    (updateEntityEdgeStats st a b t).edges = st.edges := by
  unfold updateEntityEdgeStats
  split <;> split <;> first
    | rfl
    | (rw [edges_statsTargetPhase]; rfl)

/-! ## Claim theorems -/

/-- C1.  Merging a new observation of confidence `c` into an existing edge
with weight `w` and `observationCount` `n` stores weight
`(w * n + c) / (n + 1)` and `observationCount` `n + 1`
(`_create_or_update_edge`, lines 707-718); concretely, an edge created with
confidence 0.8 then merged with confidence 0.4 holds weight 0.6 and
`observationCount` 2. -/
theorem c1_edge_weight_running_mean :
    (∀ (st : Store)
        (conv srcId srcType srcName tgtId tgtType tgtName edgeType evidence :
          String)
        (conf : ℚ) (attrs : EdgeAttributes) (e : Edge),
      getEdge st (makeEdgeId edgeType srcId tgtId) = some e →
      ∃ e', getEdge (createOrUpdateEdge st conv srcId srcType srcName tgtId
          tgtType tgtName edgeType conf evidence attrs)
            (makeEdgeId edgeType srcId tgtId) = some e' ∧
        e'.weight = (e.weight * (e.observationCount : ℚ) + conf) /
          ((e.observationCount : ℚ) + 1) ∧
        e'.observationCount = e.observationCount + 1) ∧
    (getEdge c1Run "learning_pathway_topic_a_concept_b").map
      (fun e => (e.weight, e.observationCount)) = some (0.6, 2) := by
  constructor
  · intro st conv srcId sT sN tgtId tT tN eT ev conf attrs e h
    have hid : e.id = makeEdgeId eT srcId tgtId :=
      @find?_key_eq _ Edge.id _ _ _ h
    have hid' : Edge.id (mergedEdge e conv conf ev) = makeEdgeId eT srcId tgtId := by
      rw [show Edge.id (mergedEdge e conv conf ev) = e.id from rfl, hid]
    refine ⟨mergedEdge e conv conf ev, ?_, rfl, rfl⟩
    simp only [createOrUpdateEdge, h]
    unfold getEdge
    rw [edges_updateEntityEdgeStats]
    exact find?_replace Edge.id st.edges _ e _ h hid'
  · norm_num +decide [c1Run, createOrUpdateEdge, mergedEdge, getEdge,
      makeEdgeId, updateEntityEdgeStats, statsTargetPhase, withEntities,
      getEntity, replaceEdge, lastN, pyTake]

/-- C1 witness: the general statement instantiated on the concretely stored
edge of `c1Run`'s first step. -/
theorem c1_edge_weight_running_mean_witness :
    ∃ e', getEdge (createOrUpdateEdge
        (createOrUpdateEdge {} "c1" "topic_a" "topic" "A" "concept_b"
          "concept" "B" "learning_pathway" (8/10) "" {})
        "c2" "topic_a" "topic" "A" "concept_b" "concept" "B"
        "learning_pathway" (4/10) "" {})
          (makeEdgeId "learning_pathway" "topic_a" "concept_b") = some e' ∧
      e'.weight = ((8/10 : ℚ) * ((1 : Nat) : ℚ) + 4/10) / (((1 : Nat) : ℚ) + 1) ∧
      e'.observationCount = (1 : Nat) + 1 := by
  have h := c1_edge_weight_running_mean.1
    (createOrUpdateEdge {} "c1" "topic_a" "topic" "A" "concept_b" "concept"
      "B" "learning_pathway" (8/10) "" {})
    "c2" "topic_a" "topic" "A" "concept_b" "concept" "B" "learning_pathway"
    "" (4/10) {}
  have hedge : getEdge (createOrUpdateEdge {} "c1" "topic_a" "topic" "A"
      "concept_b" "concept" "B" "learning_pathway" (8/10) "" {})
      (makeEdgeId "learning_pathway" "topic_a" "concept_b") =
      some { id := "learning_pathway_topic_a_concept_b"
             edgeType := "learning_pathway"
             sourceEntityId := "topic_a", sourceEntityType := "topic"
             sourceEntityName := "A"
             targetEntityId := "concept_b", targetEntityType := "concept"
             targetEntityName := "B"
             weight := 8/10, confidence := 8/10, observationCount := 1
             conversationIds := ["c1"], evidenceSnippets := [⟨"c1", ""⟩] } := by
    norm_num +decide [createOrUpdateEdge, mergedEdge, getEdge, makeEdgeId,
      updateEntityEdgeStats, statsTargetPhase, withEntities, getEntity,
      pyTake]
  simpa using h _ hedge

/-- C2 counterexample.  The claim says runs of consecutive spaces are
replaced by a single underscore; the source's
`normalized.replace(' ', '_')` rewrites every space separately, so
`"a  b"` (two spaces) yields `topic_a__b`, not the claimed `topic_a_b`
(which is what the spec-worded `specGenerateEntityId` produces). -/
theorem c2_counterexample :
    generateEntityId "a  b" "topics" = "topic_a__b" ∧
    specGenerateEntityId "a  b" "topics" = "topic_a_b" ∧
    generateEntityId "a  b" "topics" ≠ specGenerateEntityId "a  b" "topics" := by
  refine ⟨by decide, by decide, by decide⟩

/-- C2 amended.  `generate_entity_id` lowercases the name, strips every
character except lowercase letters, digits, and whitespace, replaces every
space character with one underscore (a run of k spaces becomes k
underscores), and prefixes the singular type; any two names with the same
normalization get the same ID, and
`generate_entity_id("Dinosaurs!", "topics") =
 generate_entity_id("dinosaurs", "topics") = "topic_dinosaurs"`. -/
theorem c2_amended_id_generation :
    (∀ n₁ n₂ t : String, pyNormalize n₁ = pyNormalize n₂ →
      generateEntityId n₁ t = generateEntityId n₂ t) ∧
    generateEntityId "Dinosaurs!" "topics" = "topic_dinosaurs" ∧
    generateEntityId "dinosaurs" "topics" = "topic_dinosaurs" ∧
    generateEntityId "a  b" "topics" = "topic_a__b" := by
  refine ⟨fun n₁ n₂ t h => ?_, by decide, by decide, by decide⟩
  simp [generateEntityId, h]

/-- C2 witness: the amended idempotence applied at `"Dinosaurs!"` vs
`"dinosaurs"`. -/
theorem c2_amended_id_generation_witness :
    generateEntityId "Dinosaurs!" "topics" =
      generateEntityId "dinosaurs" "topics" :=
  c2_amended_id_generation.1 "Dinosaurs!" "dinosaurs" "topics" (by decide)

/-- C7.  Entity strength never decreases on a merge: when the new
extraction clears the 0.7 floor the stored strength becomes
`max(existing, confidence)` (line 505), and below the floor the entity is
untouched; concretely an entity at strength 0.9 merged with confidence 0.6
stays at 0.9. -/
theorem c7_strength_monotone :
    (∀ (st : Store) (d : EntityData) (etype conv n : String)
        (existing : Entity),
      d.name = some n →
      getEntity st (generateEntityId n etype) = some existing →
      ∃ e', getEntity (createOrUpdateEntity st d etype conv)
          (generateEntityId n etype) = some e' ∧
        e'.strength = (if d.confidence.getD 0 < 0.7 then existing.strength
          else max existing.strength (d.confidence.getD 0)) ∧
        existing.strength ≤ e'.strength) ∧
    (getEntity (createOrUpdateEntity c7Store
        { name := some "dinosaurs", confidence := some (6/10) } "topics" "c9")
        "topic_dinosaurs").map (·.strength) = some (9/10) := by
  constructor
  · intro st d etype conv n existing hn hfind
    have hkey : Entity.id (mergedEntity existing d conv) =
        generateEntityId n etype := by
      rw [show Entity.id (mergedEntity existing d conv) = existing.id from rfl]
      exact @find?_key_eq _ Entity.id _ _ _ hfind
    rcases lt_or_le (d.confidence.getD 0) (7/10 : ℚ) with hc | hc
    · have hlt : d.confidence.getD 0 < (0.7 : ℚ) := by rw [q07]; exact hc
      have hskip : createOrUpdateEntity st d etype conv = st := by
        simp [createOrUpdateEntity, hn, hlt]
      exact ⟨existing, by rw [hskip]; exact hfind,
        by rw [if_pos hlt], le_refl _⟩
    · have hnc : ¬ (d.confidence.getD 0 < (0.7 : ℚ)) := by
        rw [q07]; exact not_lt.2 hc
      refine ⟨mergedEntity existing d conv, ?_, ?_, ?_⟩
      · simp only [createOrUpdateEntity, hn, if_neg hnc, hfind]
        unfold getEntity
        exact find?_replace Entity.id st.entities _ existing _ hfind hkey
      · rw [if_neg hnc]; rfl
      · exact le_max_left _ _
  · norm_num +decide [c7Store, c7Entity, mkEnt, createOrUpdateEntity,
      mergedEntity, getEntity, generateEntityId, pyNormalize, rstripS,
      replaceEntity, lastN, pyTake]

/-- C7 witness: strength formula applied on `c7Store` with an above-floor
re-observation of confidence 0.8: strength stays `max(0.9, 0.8) = 0.9`. -/
theorem c7_strength_monotone_witness :
    ∃ e', getEntity (createOrUpdateEntity c7Store
        { name := some "dinosaurs", confidence := some (8/10) } "topics" "cW")
        (generateEntityId "dinosaurs" "topics") = some e' ∧
      e'.strength = (if ((8/10 : ℚ)) < 0.7 then (9/10 : ℚ)
        else max (9/10 : ℚ) (8/10 : ℚ)) ∧
      (9/10 : ℚ) ≤ e'.strength := by
  have hfind : getEntity c7Store (generateEntityId "dinosaurs" "topics") =
      some c7Entity := by
    norm_num +decide [getEntity, c7Store, c7Entity, mkEnt, generateEntityId,
      pyNormalize, rstripS]
  have h := c7_strength_monotone.1 c7Store
    { name := some "dinosaurs", confidence := some (8/10) } "topics" "cW"
    "dinosaurs" c7Entity rfl hfind
  simpa [c7Entity, mkEnt] using h

/-- C8.  An entity datum or relationship with confidence below 0.7 (absent
confidence defaulting to 0) is never written: `_create_or_update_entity`
returns before any write (lines 478-482) and `_extract_and_store_edges`
skips the relationship (lines 640-644). -/
theorem c8_confidence_floor :
    (∀ (st : Store) (d : EntityData) (etype conv : String),
      d.confidence.getD 0 < 0.7 →
      createOrUpdateEntity st d etype conv = st) ∧
    (∀ (st : Store) (conv : String) (emap : EMap) (rel : Relationship),
      rel.confidence.getD 0 < 0.7 →
      storeRelationship conv emap st rel = st) := by
  constructor
  · intro st d etype conv hc
    cases hn : d.name with
    | none => simp [createOrUpdateEntity, hn]
    | some n => simp [createOrUpdateEntity, hn, hc]
  · intro st conv emap rel hc
    simp [storeRelationship, hc]

/-- C8 witness: a 0.5-confidence entity and a 0.5-confidence relationship
leave an arbitrary concrete store untouched. -/
theorem c8_confidence_floor_witness :
    createOrUpdateEntity c7Store
      { name := some "Math", confidence := some (5/10) } "topics" "c1" =
      c7Store ∧
    storeRelationship "c1" (fun _ => none) c7Store
      { sourceEntity := "Math", sourceType := "topic"
        targetEntity := "Science", targetType := "topic"
        relationType := "learning_pathway", confidence := some (5/10) } =
      c7Store := by
  constructor
  · exact c8_confidence_floor.1 c7Store _ "topics" "c1" (by norm_num)
  · exact c8_confidence_floor.2 c7Store "c1" _ _ (by norm_num)

/-- C9.  When the LLM call fails (`raw = none`) or its output fails to
parse (`parse raw = none`), `extract_and_store` returns with the document
store untouched: no entity, edge, observation, or summary write happens.
The surrounding `try/except` (line 108) means the method also never raises;
the embedding is a total function. -/
theorem c9_parse_failure_no_writes :
    (∀ (parse : String → Option Extraction) (b : Bool) (st : Store)
        (conv nowStr : String),
      extractAndStoreLLM parse b none st conv nowStr = st) ∧
    (∀ (parse : String → Option Extraction) (raw : String) (b : Bool)
        (st : Store) (conv nowStr : String),
      parse raw = none →
      extractAndStoreLLM parse b (some raw) st conv nowStr = st) := by
  constructor
  · intro parse b st conv nowStr
    cases b <;> simp [extractAndStoreLLM, extractAndStore]
  · intro parse raw b st conv nowStr hp
    cases b <;> simp [extractAndStoreLLM, extractAndStore, hp]

/-- C9 witness: a malformed response leaves a nonempty concrete store
unchanged. -/
theorem c9_parse_failure_no_writes_witness :
    extractAndStoreLLM (fun _ => none) true (some "not json") c7Store
      "c1" "t0" = c7Store :=
  c9_parse_failure_no_writes.2 (fun _ => none) "not json" true c7Store
    "c1" "t0" rfl

/-- C10.  On a merge of an existing entity, `conversationCount` is
incremented exactly when the merging conversation differs from the stored
`lastConversationId` (lines 508-510), which is then overwritten; over the
interleaved runs A, B, A of `c10Run` the counter reaches 3 although only 2
distinct conversations contributed. -/
theorem c10_conversation_count :
    (∀ (st : Store) (d : EntityData) (etype conv n : String)
        (existing : Entity),
      d.name = some n → (0.7 : ℚ) ≤ d.confidence.getD 0 →
      getEntity st (generateEntityId n etype) = some existing →
      ∃ e', getEntity (createOrUpdateEntity st d etype conv)
          (generateEntityId n etype) = some e' ∧
        e'.conversationCount = existing.conversationCount +
          (if conv = existing.lastConversationId then 0 else 1) ∧
        e'.lastConversationId = conv) ∧
    (getEntity c10Run "topic_dinosaurs").map (·.conversationCount) =
      some 3 ∧
    (["A", "B", "A"].dedup.length = 2) := by
  refine ⟨?_, ?_, by decide⟩
  · intro st d etype conv n existing hn hc hfind
    have hkey : Entity.id (mergedEntity existing d conv) =
        generateEntityId n etype := by
      rw [show Entity.id (mergedEntity existing d conv) = existing.id from rfl]
      exact @find?_key_eq _ Entity.id _ _ _ hfind
    have hnc : ¬ (d.confidence.getD 0 < (0.7 : ℚ)) := by
      rw [q07]; rw [q07] at hc; exact not_lt.2 hc
    refine ⟨mergedEntity existing d conv, ?_, ?_, rfl⟩
    · simp only [createOrUpdateEntity, hn, if_neg hnc, hfind]
      unfold getEntity
      exact find?_replace Entity.id st.entities _ existing _ hfind hkey
    · by_cases hcv : conv = existing.lastConversationId <;>
        simp [mergedEntity, hcv]
  · norm_num +decide [c10Run, c10Data, createOrUpdateEntity, mergedEntity,
      getEntity, generateEntityId, pyNormalize, rstripS, replaceEntity,
      lastN, pyTake]

/-- C10 witness: merging `c10Run`'s entity (lastConversationId "A") from
conversation "B" increments the counter. -/
theorem c10_conversation_count_witness :
    ∃ e', getEntity (createOrUpdateEntity c10Run c10Data "topics" "B")
        (generateEntityId "Dinosaurs" "topics") = some e' ∧
      e'.conversationCount = c10Entity.conversationCount +
        (if ("B" : String) = c10Entity.lastConversationId then 0 else 1) ∧
      e'.lastConversationId = "B" := by
  have hfind : getEntity c10Run (generateEntityId "Dinosaurs" "topics") =
      some c10Entity := by
    norm_num +decide [c10Run, c10Data, c10Entity, createOrUpdateEntity,
      mergedEntity, getEntity, generateEntityId, pyNormalize, rstripS,
      replaceEntity, lastN, pyTake]
  exact c10_conversation_count.1 c10Run c10Data "topics" "B" "Dinosaurs"
    c10Entity rfl (by norm_num [c10Data]) hfind

/-- C4 amended.  The per-run `entities_map` records every entity that has a
name, regardless of its confidence (lines 83-89 carry no confidence test),
so a qualifying relationship whose endpoint was extracted below 0.7 still
resolves and its edge IS written, even though the low-confidence endpoint
entity itself is never written. -/
theorem c4_entities_map_ignores_confidence :
    (∀ (acc : Store × EMap) (conv etype n : String) (d : EntityData),
      d.name = some n →
      (entityPhaseStep conv etype acc d).2
        (relKey (rstripS etype) n) = some (generateEntityId n etype)) ∧
    getEntity c4Run "topic_math" = none ∧
    getEdge c4Run "learning_pathway_topic_math_topic_science" ≠ none := by
  refine ⟨?_, ?_, ?_⟩
  · intro acc conv etype n d hn
    simp [entityPhaseStep, hn]
  all_goals
    norm_num +decide [c4Run, c4Extraction, extractAndStore, entityPhase,
      entityTypePhase, entityPhaseStep, createOrUpdateEntity, mergedEntity,
      extractAndStoreEdges, storeRelationship, relKey, pyStrip, pyLowerStr,
      pyLower, isPySpace, generateEntityId, pyNormalize, rstripS,
      createOrUpdateEdge, mergedEdge, makeEdgeId, getEdge, getEntity,
      updateEntityEdgeStats, statsTargetPhase, withEntities,
      createObservation, observedOfType, updateSummary, stableSort,
      insertKeep, replaceEntity, replaceEdge, lastN, pyTake]

/-- C4 amended witness: the map-recording fact applied to the
below-the-floor "Math" datum of `c4Extraction`. -/
theorem c4_entities_map_ignores_confidence_witness :
    (entityPhaseStep "c1" "topics" (({} : Store), fun _ => none)
      { name := some "Math", confidence := some (5/10) }).2
      (relKey (rstripS "topics") "Math") =
      some (generateEntityId "Math" "topics") :=
  c4_entities_map_ignores_confidence.1 _ "c1" "topics" "Math" _ rfl

/-- C4 counterexample.  Run `c4Run`: the source entity "Math" is extracted
with confidence 0.5 (below the floor, so no entity document is created),
the relationship Math→Science carries confidence 0.8, yet an edge IS
written — `entities_map` recorded "Math" despite its low confidence,
contradicting the claim that such a relationship fails to resolve. -/
theorem c4_counterexample :
    (c4Extraction.topics.map fun d => d.confidence.getD 0) = [5/10, 9/10] ∧
    (c4Extraction.relationships.map fun r => r.confidence.getD 0) = [8/10] ∧
    getEntity c4Run "topic_math" = none ∧
    getEdge c4Run "learning_pathway_topic_math_topic_science" ≠ none := by
  refine ⟨by norm_num [c4Extraction], by norm_num [c4Extraction], ?_, ?_⟩ <;>
    norm_num +decide [c4Run, c4Extraction, extractAndStore, entityPhase,
      entityTypePhase, entityPhaseStep, createOrUpdateEntity, mergedEntity,
      extractAndStoreEdges, storeRelationship, relKey, pyStrip, pyLowerStr,
      pyLower, isPySpace, generateEntityId, pyNormalize, rstripS,
      createOrUpdateEdge, mergedEdge, makeEdgeId, getEdge, getEntity,
      updateEntityEdgeStats, statsTargetPhase, withEntities,
      createObservation, observedOfType, updateSummary, stableSort,
      insertKeep, replaceEntity, replaceEdge, lastN, pyTake]

/-! ## C6: the prerequisite chain -/

theorem length_insertKeep {α : Type} (keep : α → α → Bool) (e : α) :
    ∀ l : List α, (insertKeep keep e l).length = l.length + 1
  | [] => rfl
  | f :: fs => by
    unfold insertKeep
    split
    · simp [length_insertKeep keep e fs]
    · simp

theorem length_stableSort {α : Type} (keep : α → α → Bool) :
    ∀ l : List α, (stableSort keep l).length = l.length
  | [] => rfl
  | e :: es => by
    unfold stableSort
    rw [length_insertKeep, length_stableSort keep es]
    rfl

/-- The head of the stable descending sort carries a maximal weight. -/
theorem sortByWeightDesc_head_max :
    ∀ (l : List Edge) (e' : Edge),
      (sortByWeightDesc l).head? = some e' →
      ∀ e ∈ l, e.weight ≤ e'.weight := by
  intro l
  induction l with
  | nil => intro e' h; simp [sortByWeightDesc, stableSort] at h
  | cons a as ih =>
    intro e' h e he
    have hunfold : sortByWeightDesc (a :: as) =
        insertKeep (fun f e => decide (e.weight < f.weight)) a
          (sortByWeightDesc as) := rfl
    rcases hs : sortByWeightDesc as with _ | ⟨f, fs⟩
    · have has : as = [] := by
        have hl := length_stableSort
          (fun f e => decide (e.weight < f.weight)) as
        rw [show stableSort (fun f e => decide (e.weight < f.weight)) as =
          sortByWeightDesc as from rfl, hs] at hl
        exact List.length_eq_zero.mp hl.symm
      subst has
      rw [hunfold, hs] at h
      simp [insertKeep] at h
      subst h
      have : e = a := by simpa using he
      subst this
      exact le_refl _
    · rw [hunfold, hs] at h
      unfold insertKeep at h
      by_cases hk : (decide (a.weight < f.weight) : Bool) = true
      · have he' : e' = f := by
          rw [if_pos hk] at h
          simpa using h.symm
        rw [he']
        rcases List.mem_cons.mp he with rfl | hin
        · exact le_of_lt (of_decide_eq_true hk)
        · exact ih f (by rw [hs]; rfl) e hin
      · have he' : e' = a := by
          rw [if_neg hk] at h
          simpa using h.symm
        rw [he']
        rcases List.mem_cons.mp he with rfl | hin
        · exact le_refl _
        · have h1 := ih f (by rw [hs]; rfl) e hin
          have h2 : ¬ (a.weight < f.weight) := by simpa using hk
          exact le_trans h1 (le_of_not_lt h2)

/-- Behaviour of `gpcAux` relative to its accumulator: the discovered
prefix `ds` forms a greedy best-edge chain into `cur`, has no duplicates,
avoids the visited set, respects the depth budget, and an early stop is
explained by one of the loop's exit conditions. -/
theorem gpcAux_spec (st : Store) :
    ∀ (n : Nat) (cur : String) (visited : List String) (acc : List Entity),
      ∃ ds : List Entity,
        gpcAux st n cur visited acc = ds ++ acc ∧
        List.Chain' (prereqLink st) (ds.map Entity.id ++ [cur]) ∧
        (ds.map Entity.id).Nodup ∧
        (∀ i ∈ ds.map Entity.id, i ∉ visited) ∧
        ds.length ≤ n ∧
        (ds.length < n →
          bestPrereqSource st ((ds.map Entity.id ++ [cur]).headD cur) =
            none ∨
          ∃ p, bestPrereqSource st ((ds.map Entity.id ++ [cur]).headD cur) =
              some p ∧
            (p ∈ visited ∨ p ∈ ds.map Entity.id ∨ getEntity st p = none)) := by
  intro n
  induction n with
  | zero =>
    intro cur visited acc
    exact ⟨[], rfl, by simp, by simp, by simp, le_refl _, by simp⟩
  | succ n ih =>
    intro cur visited acc
    rcases hb : (sortByWeightDesc (prereqEdgesInto st cur)).head? with _ | best
    · refine ⟨[], ?_, by simp, by simp, by simp, by simp, ?_⟩
      · simp only [gpcAux, hb]
        rfl
      · intro _
        left
        simp [bestPrereqSource, hb]
    · by_cases hv : (visited.contains best.sourceEntityId : Bool) = true
      · refine ⟨[], ?_, by simp, by simp, by simp, by simp, ?_⟩
        · simp only [gpcAux, hb, hv]
          rfl
        · intro _
          right
          refine ⟨best.sourceEntityId, by simp [bestPrereqSource, hb], ?_⟩
          exact Or.inl (by simpa using hv)
      · rcases hg : getEntity st best.sourceEntityId with _ | pe
        · refine ⟨[], ?_, by simp, by simp, by simp, by simp, ?_⟩
          · simp only [gpcAux, hb, hv, hg]
            rfl
          · intro _
            right
            exact ⟨best.sourceEntityId, by simp [bestPrereqSource, hb],
              Or.inr (Or.inr hg)⟩
        · obtain ⟨ds', heq, hchain, hnodup, hfresh, hlen, hstop⟩ :=
            ih best.sourceEntityId (visited ++ [best.sourceEntityId])
              (pe :: acc)
          have hpe : pe.id = best.sourceEntityId :=
            @find?_key_eq _ Entity.id _ _ _ hg
          have hmap : (ds' ++ [pe]).map Entity.id =
              ds'.map Entity.id ++ [best.sourceEntityId] := by
            simp [hpe]
          have hpid_not : best.sourceEntityId ∉ ds'.map Entity.id := by
            intro hmem
            exact hfresh _ hmem (by simp)
          refine ⟨ds' ++ [pe], ?_, ?_, ?_, ?_, ?_, ?_⟩
          · simp only [gpcAux, hb, hv, hg]
            rw [heq]
            simp
          · have hrw : (ds' ++ [pe]).map Entity.id ++ [cur] =
                (ds'.map Entity.id ++ [best.sourceEntityId]) ++ [cur] := by
              rw [hmap]
            rw [hrw, List.chain'_append]
            refine ⟨hchain, List.chain'_singleton _, ?_⟩
            intro a ha y hy
            rw [List.getLast?_concat] at ha
            simp at ha hy
            subst ha; subst hy
            show bestPrereqSource st cur = some best.sourceEntityId
            simp [bestPrereqSource, hb]
          · rw [hmap, List.nodup_append]
            refine ⟨hnodup, List.nodup_singleton _, ?_⟩
            intro a hmem hmem2
            have ha : a = best.sourceEntityId := by simpa using hmem2
            subst ha
            exact hpid_not hmem
          · intro i hi
            rw [hmap] at hi
            rcases List.mem_append.mp hi with hi | hi
            · intro hmem
              exact hfresh i hi (List.mem_append_left _ hmem)
            · have : i = best.sourceEntityId := by simpa using hi
              subst this
              intro hmem
              exact hv (by simpa using hmem)
          · simpa using Nat.add_le_add_right hlen 1
          · intro hlt
            have hlt' : ds'.length < n := by
              simp at hlt
              omega
            have hhead : ((ds' ++ [pe]).map Entity.id ++ [cur]).headD cur =
                ((ds'.map Entity.id ++ [best.sourceEntityId]).headD
                  best.sourceEntityId) := by
              rw [hmap]
              cases ds' <;> simp
            rcases hstop hlt' with hnone | ⟨p, hp, hloc⟩
            · left
              rw [hhead]
              exact hnone
            · right
              refine ⟨p, by rw [hhead]; exact hp, ?_⟩
              rcases hloc with hmem | hmem | hmiss
              · rcases List.mem_append.mp hmem with h1 | h1
                · exact Or.inl h1
                · have hp1 : p = best.sourceEntityId := by simpa using h1
                  subst hp1
                  exact Or.inr (Or.inl (by simp [hmap]))
              · refine Or.inr (Or.inl ?_)
                rw [hmap]
                exact List.mem_append_left _ hmem
              · exact Or.inr (Or.inr hmiss)

/-- C6.  The prerequisite chain walk is greedy on the single
highest-weight incoming prerequisite edge at each step (the sort head
carries maximal weight), never repeats an entity (it stops on revisit),
stays within the depth budget, stops early only on no-prerequisite /
revisit / missing-document, and orders the result from the most fundamental
prerequisite down to the queried entity's immediate prerequisite (each
chain element is the best-edge source of its successor, the last one of the
queried entity itself); on `preStore` (edges of weights 0.9 and 0.5 into X)
it follows only the 0.9 edge. -/
theorem c6_prerequisite_chain :
    (∀ (st : Store) (x : String) (maxD : Nat),
      List.Chain' (prereqLink st)
        ((getPrerequisiteChain st x maxD).map Entity.id ++ [x]) ∧
      ((getPrerequisiteChain st x maxD).map Entity.id ++ [x]).Nodup ∧
      (getPrerequisiteChain st x maxD).length ≤ maxD ∧
      ((getPrerequisiteChain st x maxD).length < maxD →
        bestPrereqSource st
          (((getPrerequisiteChain st x maxD).map Entity.id ++ [x]).headD x) =
          none ∨
        ∃ p, bestPrereqSource st
            (((getPrerequisiteChain st x maxD).map Entity.id ++ [x]).headD x)
            = some p ∧
          (p ∈ (getPrerequisiteChain st x maxD).map Entity.id ++ [x] ∨
            getEntity st p = none))) ∧
    (∀ (st : Store) (y : String) (e' : Edge),
      (sortByWeightDesc (prereqEdgesInto st y)).head? = some e' →
      ∀ e ∈ prereqEdgesInto st y, e.weight ≤ e'.weight) ∧
    (getPrerequisiteChain preStore "X" 3).map Entity.id = ["W9"] := by
  refine ⟨?_, ?_, ?_⟩
  · intro st x maxD
    obtain ⟨ds, heq, hchain, hnodup, hfresh, hlen, hstop⟩ :=
      gpcAux_spec st maxD x [x] []
    have hds : getPrerequisiteChain st x maxD = ds := by
      rw [getPrerequisiteChain, heq, List.append_nil]
    rw [hds]
    refine ⟨hchain, ?_, hlen, ?_⟩
    · rw [List.nodup_append]
      refine ⟨hnodup, List.nodup_singleton _, ?_⟩
      intro a hmem heq'
      have : a = x := by simpa using heq'
      subst this
      exact hfresh _ hmem (by simp)
    · intro hlt
      rcases hstop hlt with hnone | ⟨p, hp, hloc⟩
      · exact Or.inl hnone
      · right
        refine ⟨p, hp, ?_⟩
        rcases hloc with hmem | hmem | hmiss
        · exact Or.inl (by simp at hmem; simp [hmem])
        · exact Or.inl (List.mem_append_left _ hmem)
        · exact Or.inr hmiss
  · intro st y e' h e he
    exact sortByWeightDesc_head_max _ e' h e he
  · norm_num +decide [getPrerequisiteChain, gpcAux, preStore, mkEnt,
      mkLpPre, mkLpEdge, prereqEdgesInto, sortByWeightDesc, stableSort,
      insertKeep, getEntity]

/-- C6 witness: on `preStore`, the chosen edge into X is the 0.9 one, and
the bypassed 0.5 edge indeed has no larger weight. -/
theorem c6_prerequisite_chain_witness :
    (mkLpPre "W5" "X" (5/10)).weight ≤ (mkLpPre "W9" "X" (9/10)).weight := by
  have hhead : (sortByWeightDesc (prereqEdgesInto preStore "X")).head? =
      some (mkLpPre "W9" "X" (9/10)) := by
    norm_num +decide [preStore, mkEnt, mkLpPre, mkLpEdge, prereqEdgesInto,
      sortByWeightDesc, stableSort, insertKeep]
  have hmem : mkLpPre "W5" "X" (5/10) ∈ prereqEdgesInto preStore "X" := by
    norm_num +decide [preStore, mkEnt, mkLpPre, mkLpEdge, prereqEdgesInto]
  exact c6_prerequisite_chain.2.1 preStore "X" _ hhead _ hmem

/-! ## C3: BFS neighbour expansion -/

theorem exists_minimal_reach (st : Store) (ts : Option (List String))
    (mw : ℚ) (s : String) :
    ∀ (d : Nat) (v : String), reachIn st ts mw s d v →
      ∃ d', d' ≤ d ∧ reachIn st ts mw s d' v ∧
        ∀ e < d', ¬ reachIn st ts mw s e v := by
  intro d
  induction d using Nat.strong_induction_on with
  | _ d ih =>
    intro v hv
    by_cases h : ∃ e, e < d ∧ reachIn st ts mw s e v
    · obtain ⟨e, he, hre⟩ := h
      obtain ⟨d', hle, h1, h2⟩ := ih e he v hre
      exact ⟨d', le_trans hle (le_of_lt he), h1, h2⟩
    · push_neg at h
      exact ⟨d, le_refl _, hv, fun e he hre => h e he hre⟩

/-- Elements produced by the dedup fold come from the accumulator or from
filter-passing elements of the input. -/
theorem foldl_dedup_sound (ts : Option (List String)) :
    ∀ (l : List Edge) (acc : List Edge × List String) (e : Edge),
      e ∈ (l.foldl (dedupStep ts) acc).1 →
      e ∈ acc.1 ∨ (e ∈ l ∧ passesTypeFilter ts e = true) := by
  intro l
  induction l with
  | nil => intro acc e he; exact Or.inl he
  | cons a as ih =>
    intro acc e he
    rw [List.foldl_cons] at he
    rcases ih (dedupStep ts acc a) e he with hacc | ⟨hmem, hpass⟩
    · unfold dedupStep at hacc
      by_cases hp : passesTypeFilter ts a = true
      · rw [if_pos hp] at hacc
        by_cases hc : (acc.2.contains a.id : Bool) = true
        · rw [if_pos hc] at hacc
          exact Or.inl hacc
        · rw [if_neg hc] at hacc
          rcases List.mem_append.mp hacc with h1 | h1
          · exact Or.inl h1
          · have : e = a := by simpa using h1
            subst this
            exact Or.inr ⟨List.mem_cons_self _ _, hp⟩
      · rw [if_neg hp] at hacc
        exact Or.inl hacc
    · exact Or.inr ⟨List.mem_cons_of_mem _ hmem, hpass⟩

theorem foldl_dedup_acc_mono (ts : Option (List String)) :
    ∀ (l : List Edge) (acc : List Edge × List String) (e : Edge),
      e ∈ acc.1 → e ∈ (l.foldl (dedupStep ts) acc).1 := by
  intro l
  induction l with
  | nil => intro acc e he; exact he
  | cons a as ih =>
    intro acc e he
    rw [List.foldl_cons]
    apply ih
    unfold dedupStep
    split
    · split
      · exact he
      · exact List.mem_append_left _ he
    · exact he

theorem foldl_dedup_ids (ts : Option (List String)) :
    ∀ (l : List Edge) (acc : List Edge × List String),
      acc.2 = acc.1.map Edge.id →
      (l.foldl (dedupStep ts) acc).2 = (l.foldl (dedupStep ts) acc).1.map Edge.id := by
  intro l
  induction l with
  | nil => intro acc h; exact h
  | cons a as ih =>
    intro acc h
    rw [List.foldl_cons]
    apply ih
    unfold dedupStep
    split
    · split
      · exact h
      · simp [h]
    · exact h

theorem foldl_dedup_complete (ts : Option (List String)) :
    ∀ (l : List Edge) (acc : List Edge × List String),
      acc.2 = acc.1.map Edge.id →
      ∀ e ∈ l, passesTypeFilter ts e = true →
      ∃ e' ∈ (l.foldl (dedupStep ts) acc).1, e'.id = e.id := by
  intro l
  induction l with
  | nil => intro acc h e he; exact absurd he (List.not_mem_nil e)
  | cons a as ih =>
    intro acc hacc e he hp
    rw [List.foldl_cons]
    have hacc' : (dedupStep ts acc a).2 = (dedupStep ts acc a).1.map Edge.id := by
      unfold dedupStep
      split
      · split
        · exact hacc
        · simp [hacc]
      · exact hacc
    rcases List.mem_cons.mp he with rfl | hin
    · by_cases hc : (acc.2.contains e.id : Bool) = true
      · have : e.id ∈ acc.1.map Edge.id := by
          rw [← hacc]
          simpa using hc
        obtain ⟨e', he', hid⟩ := List.mem_map.mp this
        refine ⟨e', ?_, hid⟩
        apply foldl_dedup_acc_mono
        unfold dedupStep
        repeat' split
        all_goals exact he'
      · refine ⟨e, ?_, rfl⟩
        apply foldl_dedup_acc_mono
        unfold dedupStep
        rw [if_pos hp, if_neg hc]
        exact List.mem_append_right _ (List.mem_singleton.mpr rfl)
    · exact ih _ hacc' e hin hp

theorem mem_getEntityEdges_sound (st : Store) (x : String)
    (ts : Option (List String)) (mw : ℚ) :
    ∀ e ∈ getEntityEdges st x ts mw, e ∈ st.edges ∧
      passesTypeFilter ts e = true ∧ weightOk mw e = true ∧
      (e.sourceEntityId = x ∨ e.targetEntityId = x) := by
  intro e he
  unfold getEntityEdges at he
  rcases foldl_dedup_sound ts _ _ _ he with h | ⟨hmem, hpass⟩
  · exact absurd h (List.not_mem_nil e)
  · rcases List.mem_append.mp hmem with h1 | h1
    · obtain ⟨hmem', hcond⟩ := List.mem_filter.mp h1
      have hsrc : e.sourceEntityId = x := by
        have := (Bool.and_eq_true _ _).mp hcond
        simpa using this.1
      have hw : weightOk mw e = true := ((Bool.and_eq_true _ _).mp hcond).2
      exact ⟨hmem', hpass, hw, Or.inl hsrc⟩
    · obtain ⟨hmem', hcond⟩ := List.mem_filter.mp h1
      have htgt : e.targetEntityId = x := by
        have := (Bool.and_eq_true _ _).mp hcond
        simpa using this.1
      have hw : weightOk mw e = true := ((Bool.and_eq_true _ _).mp hcond).2
      exact ⟨hmem', hpass, hw, Or.inr htgt⟩

theorem mem_getEntityEdges_complete (st : Store) (x : String)
    (ts : Option (List String)) (mw : ℚ)
    (hids : (st.edges.map Edge.id).Nodup) :
    ∀ e ∈ st.edges, passesTypeFilter ts e = true → weightOk mw e = true →
    (e.sourceEntityId = x ∨ e.targetEntityId = x) →
    e ∈ getEntityEdges st x ts mw := by
  intro e hmem hpass hw hend
  have hq : e ∈ (st.edges.filter fun e =>
      e.sourceEntityId == x && weightOk mw e) ++
      (st.edges.filter fun e => e.targetEntityId == x && weightOk mw e) := by
    rcases hend with hsrc | htgt
    · exact List.mem_append_left _
        (List.mem_filter.mpr ⟨hmem, by simp [hsrc, hw]⟩)
    · exact List.mem_append_right _
        (List.mem_filter.mpr ⟨hmem, by simp [htgt, hw]⟩)
  obtain ⟨e', he', hid⟩ := foldl_dedup_complete ts _ ([], []) rfl e hq hpass
  have he'mem : e' ∈ st.edges := by
    rcases foldl_dedup_sound ts _ _ _ he' with h | ⟨hmem', _⟩
    · exact absurd h (List.not_mem_nil e')
    · rcases List.mem_append.mp hmem' with h1 | h1
      · exact (List.mem_filter.mp h1).1
      · exact (List.mem_filter.mp h1).1
  have : e' = e := List.inj_on_of_nodup_map hids he'mem hmem hid
  rw [← this]
  exact he'

/-- Every node whose minimal hop distance is at most the depth of the entry
currently being expanded is already visited.  This is the crux of the BFS
level-order argument: distances strictly below `k` are covered by the
`frontier` invariant, and distance exactly `k` is reached from an
already-expanded node of distance `k - 1`. -/
theorem minimal_reach_le_k_mem (st : Store) (ts : Option (List String))
    (mw : ℚ) (s : String) (maxD : Nat) (cur : String) (k : Nat)
    (P Qm : List (String × Nat)) (V : List String) (F : List (Entity × Nat))
    (hinv : BfsInv st ts mw s maxD (P ++ [(cur, k)]) Qm V F P)
    (hk : k < maxD) :
    ∀ (v : String) (d : Nat), reachIn st ts mw s d v →
      (∀ e < d, ¬ reachIn st ts mw s e v) → d ≤ k → v ∈ V := by
  have hcurP : (cur, k) ∈ (P ++ [(cur, k)]) ++ Qm :=
    List.mem_append_left _ (List.mem_append_right _ (by simp))
  have hPle : ∀ p ∈ P, p.2 ≤ k := by
    have hs := hinv.depth_sorted
    rw [List.map_append] at hs
    obtain ⟨hs1, _, _⟩ := List.pairwise_append.mp hs
    rw [List.map_append] at hs1
    obtain ⟨_, _, hcross⟩ := List.pairwise_append.mp hs1
    intro p hp
    exact hcross p.2 (List.mem_map_of_mem _ hp) k (by simp)
  intro v d hre hmin hdk
  rcases lt_or_eq_of_le hdk with hlt | rfl
  · exact hinv.frontier v d hre hmin (cur, k) hcurP hlt
  · cases d with
    | zero =>
      have hvs : v = s := hre
      subst hvs
      rw [hinv.conserve]
      exact List.mem_map_of_mem _ hinv.start_mem
    | succ e =>
      obtain ⟨w, hwre, hRwv⟩ := hre
      obtain ⟨e', he'le, hwre', hwmin⟩ :=
        exists_minimal_reach st ts mw s e w hwre
      have he'k : e' < e + 1 := Nat.lt_succ_of_le he'le
      have hwV : w ∈ V :=
        hinv.frontier w e' hwre' hwmin (cur, e + 1) hcurP he'k
      obtain ⟨q, hqmem, hq1⟩ : ∃ q ∈ (P ++ [(cur, e + 1)]) ++ Qm, q.1 = w := by
        rw [hinv.conserve] at hwV
        obtain ⟨q, hq, hq1⟩ := List.mem_map.mp hwV
        exact ⟨q, hq, hq1⟩
      obtain ⟨hqre, hqmin⟩ := hinv.dist_exact q hqmem
      rw [hq1] at hqre hqmin
      have hq2 : q.2 = e' := by
        rcases Nat.lt_trichotomy q.2 e' with h | h | h
        · exact absurd hqre (hwmin q.2 h)
        · exact h
        · exact absurd hwre' (hqmin e' h)
      have hqP : q ∈ P := by
        rcases List.mem_append.mp hqmem with hq | hq
        · rcases List.mem_append.mp hq with hq | hq
          · exact hq
          · have : q = (cur, e + 1) := by simpa using hq
            rw [this] at hq2
            omega
        · exfalso
          have hs := hinv.depth_sorted
          rw [List.map_append] at hs
          obtain ⟨_, _, hcross⟩ := List.pairwise_append.mp hs
          have := hcross (e + 1)
            (List.mem_map.mpr ⟨(cur, e + 1),
              List.mem_append_right _ (by simp), rfl⟩) q.2
            (List.mem_map_of_mem _ hq)
          omega
      have he'max : q.2 < maxD := by
        rw [hq2]; omega
      have := hinv.expanded q hqP he'max v (hq1 ▸ hRwv)
      exact this

/-- Re-establishing the invariant across one discovery (the body of the
edge loop that appends the neighbour to the visited set, the depth bucket
and the queue). -/
theorem discovery_step (st : Store) (ts : Option (List String)) (mw : ℚ)
    (s : String) (maxD : Nat) (cur : String) (k : Nat) (hk : k < maxD)
    (P Qm : List (String × Nat)) (V : List String) (F : List (Entity × Nat))
    (e : Edge) (ent : Entity)
    (hinv : BfsInv st ts mw s maxD (P ++ [(cur, k)]) Qm V F P)
    (hes : e ∈ st.edges ∧ passesTypeFilter ts e = true ∧
      weightOk mw e = true ∧
      (e.sourceEntityId = cur ∨ e.targetEntityId = cur))
    (hnbV : neighborOf e cur ∉ V)
    (hg : getEntity st (neighborOf e cur) = some ent) :
    BfsInv st ts mw s maxD (P ++ [(cur, k)]) (Qm ++ [(neighborOf e cur, k + 1)])
      (V ++ [neighborOf e cur]) (F ++ [(ent, k + 1)]) P := by
  have hcurP : (cur, k) ∈ (P ++ [(cur, k)]) ++ Qm :=
    List.mem_append_left _ (List.mem_append_right _ (by simp))
  have hR : relStep st ts mw cur (neighborOf e cur) := by
    refine ⟨by rw [hg]; rfl, e, hes.1, hes.2.1, hes.2.2.1, hes.2.2.2, rfl⟩
  have hentid : ent.id = neighborOf e cur := @find?_key_eq _ Entity.id _ _ _ hg
  have hPle : ∀ p ∈ P ++ [(cur, k)], p.2 ≤ k := by
    have hs := hinv.depth_sorted
    rw [List.map_append] at hs
    obtain ⟨hs1, _, _⟩ := List.pairwise_append.mp hs
    rw [List.map_append] at hs1
    obtain ⟨_, _, hcross⟩ := List.pairwise_append.mp hs1
    intro p hp
    rcases List.mem_append.mp hp with hp | hp
    · exact hcross p.2 (List.mem_map_of_mem _ hp) k (by simp)
    · have : p = (cur, k) := by simpa using hp
      rw [this]
  have hQge : ∀ q ∈ Qm, q.2 ≤ k + 1 := by
    intro q hq
    have := hinv.two_level q hq (cur, k)
      (by rw [List.getLast?_concat]; rfl)
    exact this
  constructor
  case conserve =>
    rw [← List.append_assoc, List.map_append, ← hinv.conserve]
    rfl
  case vnodup =>
    rw [List.nodup_append]
    refine ⟨hinv.vnodup, List.nodup_singleton _, ?_⟩
    intro a ha ha2
    have : a = neighborOf e cur := by simpa using ha2
    subst this
    exact hnbV ha
  case start_mem =>
    rcases List.mem_append.mp hinv.start_mem with h | h
    · exact List.mem_append_left _ h
    · exact List.mem_append_right _ (List.mem_append_left _ h)
  case init_q =>
    intro h
    exact absurd h (by simp)
  case found_eq =>
    rw [← List.append_assoc, List.map_append, List.filter_append,
      hinv.found_eq]
    simp [hg, hentid]
  case found_ent =>
    intro p hp
    rcases List.mem_append.mp hp with h | h
    · exact hinv.found_ent p h
    · have : p = (ent, k + 1) := by simpa using h
      rw [this, hentid]
      exact hg
  case dist_exact =>
    intro q hq
    rw [← List.append_assoc] at hq
    rcases List.mem_append.mp hq with h | h
    · exact hinv.dist_exact q h
    · have hqe : q = (neighborOf e cur, k + 1) := by simpa using h
      subst hqe
      constructor
      · exact ⟨cur, (hinv.dist_exact (cur, k) hcurP).1, hR⟩
      · intro d' hd' hre
        obtain ⟨d'', hle, h1, h2⟩ :=
          exists_minimal_reach st ts mw s d' _ hre
        have : neighborOf e cur ∈ V :=
          minimal_reach_le_k_mem st ts mw s maxD cur k P Qm V F hinv hk
            _ d'' h1 h2 (by omega)
        exact hnbV this
  case depth_sorted =>
    rw [← List.append_assoc, List.map_append]
    refine List.pairwise_append.mpr ⟨hinv.depth_sorted, by simp, ?_⟩
    intro a ha b hb
    have hb' : b = k + 1 := by simpa using hb
    rw [List.map_append] at ha
    rcases List.mem_append.mp ha with h | h
    · obtain ⟨p, hp, hpa⟩ := List.mem_map.mp h
      have := hPle p hp
      omega
    · obtain ⟨p, hp, hpa⟩ := List.mem_map.mp h
      have := hQge p hp
      omega
  case two_level =>
    intro q hq p hp
    rw [List.getLast?_concat] at hp
    have hp2 : (cur, k) = p := by simpa using hp
    subst hp2
    rcases List.mem_append.mp hq with h | h
    · exact hQge q h
    · have : q = (neighborOf e cur, k + 1) := by simpa using h
      rw [this]
  case expanded =>
    intro q hq hlt v hRv
    exact List.mem_append_left _ (hinv.expanded q hq hlt v hRv)
  case frontier =>
    intro v d' hre hmin q hq hdq
    rw [← List.append_assoc] at hq
    rcases List.mem_append.mp hq with h | h
    · exact List.mem_append_left _ (hinv.frontier v d' hre hmin q h hdq)
    · have hqe : q = (neighborOf e cur, k + 1) := by simpa using h
      subst hqe
      have : v ∈ V :=
        minimal_reach_le_k_mem st ts mw s maxD cur k P Qm V F hinv hk
          v d' hre hmin (by simpa using Nat.lt_succ_iff.mp hdq)
      exact List.mem_append_left _ this
  case depth_le =>
    intro q hq
    rw [← List.append_assoc] at hq
    rcases List.mem_append.mp hq with h | h
    · exact hinv.depth_le q h
    · have : q = (neighborOf e cur, k + 1) := by simpa using h
      rw [this]
      omega

/-- The edge loop preserves the invariant and, once every edge of the
current node is processed, upgrades it with the expansion of the node
itself. -/
theorem processEdges_spec (st : Store) (ts : Option (List String)) (mw : ℚ)
    (s : String) (maxD : Nat) (cur : String) (k : Nat) (hk : k < maxD) :
    ∀ (es : List Edge) (Qm : List (String × Nat)) (V : List String)
      (F : List (Entity × Nat)) (ed : List Edge) (P : List (String × Nat)),
      BfsInv st ts mw s maxD (P ++ [(cur, k)]) Qm V F P →
      (∀ e ∈ es, e ∈ st.edges ∧ passesTypeFilter ts e = true ∧
        weightOk mw e = true ∧
        (e.sourceEntityId = cur ∨ e.targetEntityId = cur)) →
      (∀ v, relStep st ts mw cur v →
        (∃ e ∈ es, neighborOf e cur = v) ∨ v ∈ V) →
      BfsInv st ts mw s maxD (P ++ [(cur, k)])
        (processEdges st cur k es Qm V F ed).1
        (processEdges st cur k es Qm V F ed).2.1
        (processEdges st cur k es Qm V F ed).2.2.1
        (P ++ [(cur, k)]) := by
  intro es
  induction es with
  | nil =>
    intro Qm V F ed P hinv hsound hcov
    refine ⟨hinv.conserve, hinv.vnodup, hinv.start_mem, hinv.init_q,
      hinv.found_eq, hinv.found_ent, hinv.dist_exact, hinv.depth_sorted,
      hinv.two_level, ?_, hinv.frontier, hinv.depth_le⟩
    intro q hq hlt v hRv
    rcases List.mem_append.mp hq with hqP | hqCur
    · exact hinv.expanded q hqP hlt v hRv
    · have hqc : q = (cur, k) := by simpa using hqCur
      subst hqc
      rcases hcov v hRv with ⟨e, he, _⟩ | hV
      · exact absurd he (List.not_mem_nil e)
      · exact hV
  | cons e es ih =>
    intro Qm V F ed P hinv hsound hcov
    by_cases hc : (V.contains (neighborOf e cur) : Bool) = true
    · have hstep : processEdges st cur k (e :: es) Qm V F ed =
          processEdges st cur k es Qm V F ed := by
        simp only [processEdges]
        rw [if_pos hc]
      rw [hstep]
      apply ih Qm V F ed P hinv
        (fun e' he' => hsound e' (List.mem_cons_of_mem _ he'))
      intro v hRv
      rcases hcov v hRv with ⟨e', he', hnb⟩ | hV
      · rcases List.mem_cons.mp he' with rfl | hin
        · right
          rw [← hnb]
          simpa using hc
        · exact Or.inl ⟨e', hin, hnb⟩
      · exact Or.inr hV
    · rcases hg : getEntity st (neighborOf e cur) with _ | ent
      · have hstep : processEdges st cur k (e :: es) Qm V F ed =
            processEdges st cur k es Qm V F ed := by
          simp only [processEdges]
          rw [if_neg hc]
          simp only [hg]
        rw [hstep]
        apply ih Qm V F ed P hinv
          (fun e' he' => hsound e' (List.mem_cons_of_mem _ he'))
        intro v hRv
        rcases hcov v hRv with ⟨e', he', hnb⟩ | hV
        · rcases List.mem_cons.mp he' with rfl | hin
          · exfalso
            obtain ⟨hsome, _⟩ := hRv
            rw [← hnb, hg] at hsome
            simp at hsome
          · exact Or.inl ⟨e', hin, hnb⟩
        · exact Or.inr hV
      · have hstep : processEdges st cur k (e :: es) Qm V F ed =
            processEdges st cur k es (Qm ++ [(neighborOf e cur, k + 1)])
              (V ++ [neighborOf e cur]) (F ++ [(ent, k + 1)]) (ed ++ [e]) := by
          simp only [processEdges]
          rw [if_neg hc]
          simp only [hg]
        rw [hstep]
        have hnbV : neighborOf e cur ∉ V := by
          intro hm
          exact hc (by simpa using hm)
        have hinv2 := discovery_step st ts mw s maxD cur k hk P Qm V F e ent
          hinv (hsound e (List.mem_cons_self _ _)) hnbV hg
        apply ih _ _ _ _ P hinv2
          (fun e' he' => hsound e' (List.mem_cons_of_mem _ he'))
        intro v hRv
        rcases hcov v hRv with ⟨e', he', hnb⟩ | hV
        · rcases List.mem_cons.mp he' with rfl | hin
          · right
            rw [← hnb]
            exact List.mem_append_right _ (by simp)
          · exact Or.inl ⟨e', hin, hnb⟩
        · exact Or.inr (List.mem_append_left _ hV)

/-- Popping the front queue entry moves it to the popped list; every
invariant component carries over (the entry is not yet expanded). -/
theorem pop_step (st : Store) (ts : Option (List String)) (mw : ℚ)
    (s : String) (maxD : Nat) (cur : String) (k : Nat)
    (P rest : List (String × Nat)) (V : List String)
    (F : List (Entity × Nat))
    (hinv : BfsInv st ts mw s maxD P ((cur, k) :: rest) V F P) :
    BfsInv st ts mw s maxD (P ++ [(cur, k)]) rest V F P := by
  have hQ : (P ++ [(cur, k)]) ++ rest = P ++ ((cur, k) :: rest) := by simp
  constructor
  case conserve => rw [hQ]; exact hinv.conserve
  case vnodup => exact hinv.vnodup
  case start_mem => rw [hQ]; exact hinv.start_mem
  case init_q => intro h; exact absurd h (by simp)
  case found_eq => rw [hQ]; exact hinv.found_eq
  case found_ent => exact hinv.found_ent
  case dist_exact => rw [hQ]; exact hinv.dist_exact
  case depth_sorted => rw [hQ]; exact hinv.depth_sorted
  case two_level =>
    intro q hq p hp
    rw [List.getLast?_concat] at hp
    have hp2 : (cur, k) = p := by simpa using hp
    subst hp2
    rcases hP : P.getLast? with _ | p₀
    · have hPnil : P = [] := by
        cases P with
        | nil => rfl
        | cons a as => simp [List.getLast?_eq_none_iff] at hP
      have hsing := hinv.init_q hPnil
      have hrest : rest = [] := by
        have := congrArg List.tail hsing
        simpa using this
      rw [hrest] at hq
      exact absurd hq (List.not_mem_nil q)
    · have h1 := hinv.two_level q (List.mem_cons_of_mem _ hq) p₀
        (by rw [hP]; rfl)
      have hp₀P : p₀ ∈ P := List.mem_of_mem_getLast? (by rw [hP]; rfl)
      have hple : p₀.2 ≤ k := by
        have hs := hinv.depth_sorted
        rw [List.map_append] at hs
        obtain ⟨_, _, hcross⟩ := List.pairwise_append.mp hs
        exact hcross p₀.2 (List.mem_map_of_mem _ hp₀P) k (by simp)
      omega
  case expanded => exact hinv.expanded
  case frontier =>
    intro v d' h1 h2 q hq hdq
    rw [hQ] at hq
    exact hinv.frontier v d' h1 h2 q hq hdq
  case depth_le =>
    intro q hq
    rw [hQ] at hq
    exact hinv.depth_le q hq

/-- The invariant as set up before the first loop iteration. -/
theorem init_inv (st : Store) (ts : Option (List String)) (mw : ℚ)
    (s : String) (maxD : Nat) :
    BfsInv st ts mw s maxD [] [(s, 0)] [s] (startFound st s) [] := by
  constructor
  case conserve => simp
  case vnodup => simp
  case start_mem => simp
  case init_q => intro _; rfl
  case found_eq =>
    unfold startFound
    rcases h : getEntity st s with _ | e
    · simp [h]
    · have hid : e.id = s := @find?_key_eq _ Entity.id _ _ _ h
      simp [h, hid]
  case found_ent =>
    unfold startFound
    rcases h : getEntity st s with _ | e
    · intro p hp; exact absurd hp (List.not_mem_nil p)
    · intro p hp
      have hp2 : p = (e, 0) := by simpa using hp
      rw [hp2]
      have hid : e.id = s := @find?_key_eq _ Entity.id _ _ _ h
      rw [hid]
      exact h
  case dist_exact =>
    intro q hq
    have hq2 : q = (s, 0) := by simpa using hq
    subst hq2
    exact ⟨rfl, by omega⟩
  case depth_sorted => simp
  case two_level =>
    intro q hq p hp
    simp at hp
  case expanded =>
    intro q hq
    exact absurd hq (List.not_mem_nil q)
  case frontier =>
    intro v d' h1 h2 q hq hdq
    have hq2 : q = (s, 0) := by simpa using hq
    rw [hq2] at hdq
    exact absurd hdq (Nat.not_lt_zero d')
  case depth_le =>
    intro q hq
    have hq2 : q = (s, 0) := by simpa using hq
    rw [hq2]
    exact Nat.zero_le maxD

/-- Running the loop to queue exhaustion preserves the invariant. -/
theorem bfsAux_spec (st : Store) (ts : Option (List String)) (mw : ℚ)
    (s : String) (maxD : Nat) (hids : (st.edges.map Edge.id).Nodup) :
    ∀ (fuel : Nat) (Q : List (String × Nat)) (V : List String)
      (F : List (Entity × Nat)) (ed : List Edge) (P : List (String × Nat)),
      BfsInv st ts mw s maxD P Q V F P →
      ∀ r, bfsAux st ts mw maxD fuel Q V F ed = some r →
      ∃ P2 V2, BfsInv st ts mw s maxD P2 [] V2 r.1 P2 := by
  intro fuel
  induction fuel with
  | zero =>
    intro Q V F ed P hinv r hr
    cases Q with
    | nil =>
      have hre : (F, ed, V.length) = r := by simpa [bfsAux] using hr
      exact ⟨P, V, by rw [← hre]; exact hinv⟩
    | cons q rest => simp [bfsAux] at hr
  | succ fuel ih =>
    intro Q V F ed P hinv r hr
    cases Q with
    | nil =>
      have hre : (F, ed, V.length) = r := by simpa [bfsAux] using hr
      exact ⟨P, V, by rw [← hre]; exact hinv⟩
    | cons qk rest =>
      obtain ⟨cur, k⟩ := qk
      by_cases hd : maxD ≤ k
      · have hr2 : bfsAux st ts mw maxD fuel rest V F ed = some r := by
          simp only [bfsAux] at hr
          rwa [if_pos hd] at hr
        have hmid := pop_step st ts mw s maxD cur k P rest V F hinv
        have hfull : BfsInv st ts mw s maxD (P ++ [(cur, k)]) rest V F
            (P ++ [(cur, k)]) := by
          refine ⟨hmid.conserve, hmid.vnodup, hmid.start_mem, hmid.init_q,
            hmid.found_eq, hmid.found_ent, hmid.dist_exact,
            hmid.depth_sorted, hmid.two_level, ?_, hmid.frontier,
            hmid.depth_le⟩
          intro q hq hlt v hRv
          rcases List.mem_append.mp hq with h | h
          · exact hmid.expanded q h hlt v hRv
          · have hq2 : q = (cur, k) := by simpa using h
            rw [hq2] at hlt
            exact absurd hlt (not_lt.mpr hd)
        exact ih rest V F ed (P ++ [(cur, k)]) hfull r hr2
      · push_neg at hd
        have hmid := pop_step st ts mw s maxD cur k P rest V F hinv
        have hcov : ∀ v, relStep st ts mw cur v →
            (∃ e ∈ getEntityEdges st cur ts mw, neighborOf e cur = v) ∨
              v ∈ V := by
          intro v hRv
          obtain ⟨hsome, e, hmem, hpass, hw, hend, hnb⟩ := hRv
          exact Or.inl ⟨e,
            mem_getEntityEdges_complete st cur ts mw hids e hmem hpass hw hend,
            hnb⟩
        have hspec := processEdges_spec st ts mw s maxD cur k hd
          (getEntityEdges st cur ts mw) rest V F ed P hmid
          (mem_getEntityEdges_sound st cur ts mw) hcov
        have hr2 : bfsAux st ts mw maxD fuel
            (processEdges st cur k (getEntityEdges st cur ts mw) rest V F ed).1
            (processEdges st cur k (getEntityEdges st cur ts mw) rest V F ed).2.1
            (processEdges st cur k (getEntityEdges st cur ts mw) rest V F ed).2.2.1
            (processEdges st cur k (getEntityEdges st cur ts mw) rest V F ed).2.2.2
            = some r := by
          simp only [bfsAux] at hr
          rwa [if_neg (not_le.mpr hd)] at hr
        exact ih _ _ _ _ (P ++ [(cur, k)]) hspec r hr2

/-- What the invariant says about the result once the queue is empty. -/
theorem final_inv_found (st : Store) (ts : Option (List String)) (mw : ℚ)
    (s : String) (maxD : Nat) (P2 : List (String × Nat)) (V2 : List String)
    (F : List (Entity × Nat))
    (hinv : BfsInv st ts mw s maxD P2 [] V2 F P2) :
    (∀ p ∈ F, p.2 ≤ maxD ∧ getEntity st p.1.id = some p.1 ∧
      reachIn st ts mw s p.2 p.1.id ∧
      (∀ d' < p.2, ¬ reachIn st ts mw s d' p.1.id)) ∧
    (F.map (fun p => p.1.id)).Nodup ∧
    (∀ p ∈ F, 1 ≤ p.2 → p.1.id ≠ s) := by
  have hentry : ∀ p ∈ F, (p.1.id, p.2) ∈ P2 ++ [] := by
    intro p hp
    have h1 : (p.1.id, p.2) ∈ F.map (fun p => (p.1.id, p.2)) :=
      List.mem_map_of_mem _ hp
    rw [hinv.found_eq] at h1
    exact List.mem_of_mem_filter h1
  refine ⟨?_, ?_, ?_⟩
  · intro p hp
    have he := hentry p hp
    have hde := hinv.dist_exact (p.1.id, p.2) he
    exact ⟨hinv.depth_le _ he, hinv.found_ent p hp, hde.1, hde.2⟩
  · have h1 : F.map (fun p => p.1.id) =
        (F.map (fun p => (p.1.id, p.2))).map Prod.fst := by
      rw [List.map_map]
      rfl
    rw [h1, hinv.found_eq]
    have hnd : ((P2 ++ []).map Prod.fst).Nodup := by
      rw [← hinv.conserve]
      exact hinv.vnodup
    exact hnd.sublist (List.Sublist.map Prod.fst (List.filter_sublist _))
  · intro p hp h1 hid
    have he := hentry p hp
    rw [hid] at he
    have hde := hinv.dist_exact (s, p.2) he
    exact hde.2 0 (by omega) rfl

/-! Fuel sufficiency: every discovery consumes a fresh edge endpoint, so
`2 * |edges| + 1` loop iterations exhaust the queue. -/

theorem mem_edgeEndpoints (st : Store) :
    ∀ e ∈ st.edges, e.sourceEntityId ∈ edgeEndpoints st ∧
      e.targetEntityId ∈ edgeEndpoints st := by
  unfold edgeEndpoints
  generalize st.edges = l
  induction l with
  | nil => intro e he; exact absurd he (List.not_mem_nil e)
  | cons a as ih =>
    intro e he
    rcases List.mem_cons.mp he with rfl | hin
    · exact ⟨Finset.mem_insert_self _ _,
        Finset.mem_insert_of_mem (Finset.mem_insert_self _ _)⟩
    · obtain ⟨h1, h2⟩ := ih e hin
      exact ⟨Finset.mem_insert_of_mem (Finset.mem_insert_of_mem h1),
        Finset.mem_insert_of_mem (Finset.mem_insert_of_mem h2)⟩

theorem card_edgeEndpoints (st : Store) :
    (edgeEndpoints st).card ≤ 2 * st.edges.length := by
  unfold edgeEndpoints
  generalize st.edges = l
  induction l with
  | nil => simp
  | cons a as ih =>
    simp only [List.foldr_cons, List.length_cons]
    have h1 := Finset.card_insert_le a.sourceEntityId
      (insert a.targetEntityId (as.foldr (fun e acc =>
        insert e.sourceEntityId (insert e.targetEntityId acc)) ∅))
    have h2 := Finset.card_insert_le a.targetEntityId
      (as.foldr (fun e acc =>
        insert e.sourceEntityId (insert e.targetEntityId acc)) ∅)
    omega

theorem processEdges_fuel (st : Store) (U : Finset String) (cur : String)
    (k : Nat) (hU : ∀ e ∈ st.edges, e.sourceEntityId ∈ U ∧
      e.targetEntityId ∈ U) :
    ∀ (es : List Edge), (∀ e ∈ es, e ∈ st.edges) →
    ∀ (Qm : List (String × Nat)) (V : List String) (F : List (Entity × Nat))
      (ed : List Edge),
      (processEdges st cur k es Qm V F ed).1.length +
        (U \ (processEdges st cur k es Qm V F ed).2.1.toFinset).card ≤
      Qm.length + (U \ V.toFinset).card := by
  intro es
  induction es with
  | nil =>
    intro _ Qm V F ed
    simp [processEdges]
  | cons e es ih =>
    intro hmem Qm V F ed
    by_cases hc : (V.contains (neighborOf e cur) : Bool) = true
    · have hstep : processEdges st cur k (e :: es) Qm V F ed =
          processEdges st cur k es Qm V F ed := by
        simp only [processEdges]
        rw [if_pos hc]
      rw [hstep]
      exact ih (fun e2 h2 => hmem e2 (List.mem_cons_of_mem _ h2)) Qm V F ed
    · rcases hg : getEntity st (neighborOf e cur) with _ | ent
      · have hstep : processEdges st cur k (e :: es) Qm V F ed =
            processEdges st cur k es Qm V F ed := by
          simp only [processEdges]
          rw [if_neg hc]
          simp only [hg]
        rw [hstep]
        exact ih (fun e2 h2 => hmem e2 (List.mem_cons_of_mem _ h2)) Qm V F ed
      · have hstep : processEdges st cur k (e :: es) Qm V F ed =
            processEdges st cur k es (Qm ++ [(neighborOf e cur, k + 1)])
              (V ++ [neighborOf e cur]) (F ++ [(ent, k + 1)]) (ed ++ [e]) := by
          simp only [processEdges]
          rw [if_neg hc]
          simp only [hg]
        rw [hstep]
        have h1 := ih (fun e2 h2 => hmem e2 (List.mem_cons_of_mem _ h2))
          (Qm ++ [(neighborOf e cur, k + 1)]) (V ++ [neighborOf e cur])
          (F ++ [(ent, k + 1)]) (ed ++ [e])
        have hnbU : neighborOf e cur ∈ U := by
          obtain ⟨hs, ht⟩ := hU e (hmem e (List.mem_cons_self _ _))
          unfold neighborOf
          split
          · exact ht
          · exact hs
        have hnbV : neighborOf e cur ∉ V := by
          intro hm
          exact hc (by simpa using hm)
        have hsub : U \ (V ++ [neighborOf e cur]).toFinset ⊆
            U \ V.toFinset := by
          apply Finset.sdiff_subset_sdiff (le_refl U)
          intro a ha
          rw [List.mem_toFinset] at ha
          rw [List.mem_toFinset]
          exact List.mem_append_left _ ha
        have hlt : (U \ (V ++ [neighborOf e cur]).toFinset).card <
            (U \ V.toFinset).card := by
          apply Finset.card_lt_card
          rw [Finset.ssubset_iff_of_subset hsub]
          refine ⟨neighborOf e cur, ?_, ?_⟩
          · rw [Finset.mem_sdiff, List.mem_toFinset]
            exact ⟨hnbU, hnbV⟩
          · rw [Finset.mem_sdiff, List.mem_toFinset]
            intro hcontra
            exact hcontra.2 (List.mem_append_right _ (by simp))
        have hlen : (Qm ++ [(neighborOf e cur, k + 1)]).length =
            Qm.length + 1 := by simp
        omega

theorem bfsAux_fuel (st : Store) (ts : Option (List String)) (mw : ℚ)
    (maxD : Nat) (U : Finset String)
    (hU : ∀ e ∈ st.edges, e.sourceEntityId ∈ U ∧ e.targetEntityId ∈ U) :
    ∀ (fuel : Nat) (Q : List (String × Nat)) (V : List String)
      (F : List (Entity × Nat)) (ed : List Edge),
      Q.length + (U \ V.toFinset).card ≤ fuel →
      bfsAux st ts mw maxD fuel Q V F ed ≠ none := by
  intro fuel
  induction fuel with
  | zero =>
    intro Q V F ed hb
    cases Q with
    | nil => simp [bfsAux]
    | cons q rest => simp at hb
  | succ fuel ih =>
    intro Q V F ed hb
    cases Q with
    | nil => simp [bfsAux]
    | cons qk rest =>
      obtain ⟨cur, k⟩ := qk
      by_cases hd : maxD ≤ k
      · simp only [bfsAux]
        rw [if_pos hd]
        apply ih
        simp only [List.length_cons] at hb
        omega
      · simp only [bfsAux]
        rw [if_neg hd]
        apply ih
        have h1 := processEdges_fuel st U cur k hU
          (getEntityEdges st cur ts mw)
          (fun e he => (mem_getEntityEdges_sound st cur ts mw e he).1)
          rest V F ed
        simp only [List.length_cons] at hb
        omega

theorem relatedEntitiesAux_isSome (st : Store) (s : String) (maxD : Nat)
    (ts : Option (List String)) (mw : ℚ) :
    relatedEntitiesAux st s maxD ts mw ≠ none := by
  unfold relatedEntitiesAux
  apply bfsAux_fuel st ts mw maxD (bfsUniv st s)
  · intro e he
    obtain ⟨h1, h2⟩ := mem_edgeEndpoints st e he
    exact ⟨Finset.mem_insert_of_mem h1, Finset.mem_insert_of_mem h2⟩
  · have hsub : bfsUniv st s \ ([s] : List String).toFinset ⊆
        edgeEndpoints st := by
      intro a ha
      rw [Finset.mem_sdiff, List.mem_toFinset] at ha
      obtain ⟨h1, h2⟩ := ha
      unfold bfsUniv at h1
      rcases Finset.mem_insert.mp h1 with rfl | h3
      · exact absurd (by simp) h2
      · exact h3
    have := Finset.card_le_card hsub
    have := card_edgeEndpoints st
    simp only [List.length_cons, List.length_nil]
    omega

/-- C3.  `get_related_entities` is a breadth-first traversal: the loop
terminates with the queue exhausted (the fuel bound is never hit, also on
cyclic graphs), every returned entity is bucketed at exactly its hop
distance from the start in the filtered traversal graph, no entity is
returned twice (visited-set) and the start node is never rebucketed at a
positive depth, and no returned entity lies deeper than `maxDepth`; on the
chain A–B–C–D with `maxDepth = 2` from A the result is exactly A at depth
0, B at depth 1, C at depth 2 — D is absent.  (`st.edges.map Edge.id` being
duplicate-free models Firestore's per-collection document id uniqueness.) -/
theorem c3_bfs_related_entities :
    (∀ (st : Store) (s : String) (maxD : Nat) (ts : Option (List String))
        (mw : ℚ),
      (st.edges.map Edge.id).Nodup →
      relatedEntitiesAux st s maxD ts mw ≠ none ∧
      (∀ p ∈ (getRelatedEntities st s maxD ts mw).found,
        p.2 ≤ maxD ∧ getEntity st p.1.id = some p.1 ∧
        reachIn st ts mw s p.2 p.1.id ∧
        (∀ d' < p.2, ¬ reachIn st ts mw s d' p.1.id)) ∧
      ((getRelatedEntities st s maxD ts mw).found.map
        (fun p => p.1.id)).Nodup ∧
      (∀ p ∈ (getRelatedEntities st s maxD ts mw).found,
        1 ≤ p.2 → p.1.id ≠ s)) ∧
    ((getRelatedEntities chainStore "A" 2 none (5/10)).found.map
      (fun p => (p.1.id, p.2)) = [("A", 0), ("B", 1), ("C", 2)]) := by
  constructor
  · intro st s maxD ts mw hids
    have hne := relatedEntitiesAux_isSome st s maxD ts mw
    rcases hr : relatedEntitiesAux st s maxD ts mw with _ | r
    · exact absurd hr hne
    · have hr2 : bfsAux st ts mw maxD (2 * st.edges.length + 1) [(s, 0)]
          [s] (startFound st s) [] = some r := hr
      obtain ⟨P2, V2, hfin⟩ := bfsAux_spec st ts mw s maxD hids
        (2 * st.edges.length + 1) [(s, 0)] [s] (startFound st s) [] []
        (init_inv st ts mw s maxD) r hr2
      have hfound : (getRelatedEntities st s maxD ts mw).found = r.1 := by
        unfold getRelatedEntities
        rw [hr]
      obtain ⟨ha, hb, hc⟩ := final_inv_found st ts mw s maxD P2 V2 r.1 hfin
      rw [hfound]
      exact ⟨by simp, ha, hb, hc⟩
  · norm_num +decide [getRelatedEntities, relatedEntitiesAux, bfsAux,
      startFound, processEdges, getEntityEdges, dedupStep, passesTypeFilter,
      weightOk, neighborOf, getEntity, chainStore, mkEnt, mkCoEdge]

/-- C3 witness: the general statement instantiated on the concrete chain
store (edge document ids are pairwise distinct there). -/
theorem c3_bfs_related_entities_witness :
    ((getRelatedEntities chainStore "A" 2 none (5/10)).found.map
      (fun p => p.1.id)).Nodup :=
  (c3_bfs_related_entities.1 chainStore "A" 2 none (5/10)
    (by decide)).2.2.1

/-! ## C5: directed shortest learning path -/

theorem isLearningPath_ne_nil {st : Store} {p : List String} {s v : String}
    (h : isLearningPath st p s v) : p ≠ [] := by
  intro hnil
  rw [hnil] at h
  exact Option.noConfusion h.1

theorem isLearningPath_length_pos {st : Store} {p : List String}
    {s v : String} (h : isLearningPath st p s v) : 1 ≤ p.length := by
  have := isLearningPath_ne_nil h
  cases p with
  | nil => exact absurd rfl this
  | cons a as => simp

theorem isLearningPath_singleton {st : Store} {p : List String}
    {s v : String} (h : isLearningPath st p s v) (hl : p.length = 1) :
    v = s ∧ p = [s] := by
  cases p with
  | nil => simp at hl
  | cons a as =>
    cases as with
    | nil =>
      have h1 : a = s := by simpa using h.1
      have h2 : a = v := by simpa using h.2.1
      subst h1
      exact ⟨h2.symm, rfl⟩
    | cons b bs => simp at hl

theorem exists_minimal_path (st : Store) (s : String) :
    ∀ (n : Nat) (p : List String) (v : String), p.length = n →
      isLearningPath st p s v →
      ∃ pm, isLearningPath st pm s v ∧ pm.length ≤ p.length ∧
        ∀ p2, isLearningPath st p2 s v → pm.length ≤ p2.length := by
  intro n
  induction n using Nat.strong_induction_on with
  | _ n ih =>
    intro p v hn hp
    by_cases h : ∃ p2, isLearningPath st p2 s v ∧ p2.length < p.length
    · obtain ⟨p2, hp2, hlt⟩ := h
      obtain ⟨pm, h1, h2, h3⟩ := ih p2.length (by omega) p2 v rfl hp2
      exact ⟨pm, h1, by omega, h3⟩
    · push_neg at h
      exact ⟨p, hp, le_refl _, fun p2 hp2 => h p2 hp2⟩

/-- A learning path of at least two nodes splits into a shorter path and a
final hop. -/
theorem isLearningPath_decompose {st : Store} {p : List String}
    {s v : String} (h : isLearningPath st p s v) (hl : 2 ≤ p.length) :
    ∃ (p2 : List String) (w : String), p = p2 ++ [v] ∧
      isLearningPath st p2 s w ∧ lpStep st w v ∧
      p2.length + 1 = p.length := by
  have hne : p ≠ [] := isLearningPath_ne_nil h
  have hsplit : p.dropLast ++ [p.getLast hne] = p :=
    List.dropLast_append_getLast hne
  have hlast : p.getLast hne = v := by
    have := h.2.1
    rw [List.getLast?_eq_getLast p hne] at this
    simpa using this
  have hdne : p.dropLast ≠ [] := by
    intro hnil
    have : p.length ≤ 1 := by
      have := congrArg List.length hsplit
      simp [hnil] at this
      omega
    omega
  refine ⟨p.dropLast, p.dropLast.getLast hdne, by rw [← hlast, hsplit], ?_, ?_, ?_⟩
  · refine ⟨?_, ?_, ?_⟩
    · have hh := h.1
      rw [← hsplit] at hh
      cases hd : p.dropLast with
      | nil => exact absurd hd hdne
      | cons a as =>
        rw [hd] at hh
        simpa using hh
    · rw [List.getLast?_eq_getLast _ hdne]
    · have hc := h.2.2
      rw [← hsplit] at hc
      exact (List.chain'_append.mp hc).1
  · have hc := h.2.2
    rw [← hsplit] at hc
    have h3 := (List.chain'_append.mp hc).2.2
    have := h3 (p.dropLast.getLast hdne)
      (by rw [List.getLast?_eq_getLast _ hdne]; rfl) (p.getLast hne) rfl
    rw [hlast] at this
    exact this
  · have hdl : p.dropLast.length = p.length - 1 := List.length_dropLast p
    omega

theorem mem_outgoingLearningEdges_sound (st : Store) (cur : String) :
    ∀ e ∈ outgoingLearningEdges st cur, e ∈ st.edges ∧
      e.edgeType = "learning_pathway" ∧ e.sourceEntityId = cur := by
  intro e he
  obtain ⟨hmem, hcond⟩ := List.mem_filter.mp he
  have h1 := (Bool.and_eq_true _ _).mp hcond
  exact ⟨hmem, by simpa using h1.1, by simpa using h1.2⟩

theorem mem_outgoingLearningEdges_complete (st : Store) (cur v : String) :
    lpStep st cur v → ∃ e ∈ outgoingLearningEdges st cur,
      e.targetEntityId = v := by
  rintro ⟨e, hmem, htype, hsrc, htgt⟩
  exact ⟨e, List.mem_filter.mpr ⟨hmem, by simp [htype, hsrc]⟩, htgt⟩

/-- Path-BFS analogue of `minimal_reach_le_k_mem`: any node with a minimal
learning path no longer than the entry being expanded is already
visited. -/
theorem lp_minimal_le_mem (st : Store) (s t : String) (maxD : Nat)
    (cur : String) (pp : List String)
    (P Qm : List (String × List String)) (V : List String)
    (hinv : LpInv st s t maxD (P ++ [(cur, pp)]) Qm V P)
    (hlen : pp.length ≤ maxD)
    (hnr : ∀ q ∈ P ++ [(cur, pp)], maxD < q.2.length ∨ q.1 ≠ t) :
    ∀ (v : String) (p2 : List String), isLearningPath st p2 s v →
      (∀ p3, isLearningPath st p3 s v → p2.length ≤ p3.length) →
      p2.length ≤ pp.length → v ∈ V := by
  have hcurP : (cur, pp) ∈ (P ++ [(cur, pp)]) ++ Qm :=
    List.mem_append_left _ (List.mem_append_right _ (by simp))
  intro v p2 hp2 hmin hle
  rcases lt_or_eq_of_le hle with hlt | heq
  · exact hinv.frontier v p2 hp2 hmin (cur, pp) hcurP hlt
  · by_cases hone : p2.length = 1
    · obtain ⟨rfl, -⟩ := isLearningPath_singleton hp2 hone
      rw [hinv.conserve]
      exact List.mem_map_of_mem _ hinv.start_mem
    · have h2 : 2 ≤ p2.length := by
        have := isLearningPath_length_pos hp2
        omega
      obtain ⟨p3, w, hpe, hp3, hstep, hlen3⟩ := isLearningPath_decompose hp2 h2
      obtain ⟨pm, hpm, hpmle, hpmmin⟩ :=
        exists_minimal_path st s p3.length p3 w rfl hp3
      have hpmlt : pm.length < pp.length := by omega
      have hwV : w ∈ V := hinv.frontier w pm hpm hpmmin (cur, pp) hcurP hpmlt
      obtain ⟨q, hqmem, hq1⟩ : ∃ q ∈ (P ++ [(cur, pp)]) ++ Qm, q.1 = w := by
        rw [hinv.conserve] at hwV
        obtain ⟨q, hq, hq1⟩ := List.mem_map.mp hwV
        exact ⟨q, hq, hq1⟩
      have hqok := hinv.path_ok q hqmem
      have hqmin := hinv.path_min q hqmem
      rw [hq1] at hqok hqmin
      have hq2 : q.2.length = pm.length :=
        le_antisymm (hqmin pm hpm) (hpmmin q.2 hqok)
      have hqP : q ∈ P := by
        rcases List.mem_append.mp hqmem with hq | hq
        · rcases List.mem_append.mp hq with hq | hq
          · exact hq
          · exfalso
            have hqe : q = (cur, pp) := by simpa using hq
            rw [hqe] at hq2
            simp at hq2
            omega
        · exfalso
          have hs := hinv.len_sorted
          rw [List.map_append] at hs
          obtain ⟨_, _, hcross⟩ := List.pairwise_append.mp hs
          have := hcross pp.length
            (List.mem_map.mpr ⟨(cur, pp),
              List.mem_append_right _ (by simp), rfl⟩)
            q.2.length (List.mem_map_of_mem _ hq)
          omega
      have hqle : q.2.length ≤ maxD := by omega
      have hqt : q.1 ≠ t := by
        rcases hnr q (List.mem_append_left _ hqP) with h | h
        · exact absurd hqle (not_le.mpr h)
        · exact h
      exact hinv.expanded q hqP hqle hqt v (by rw [hq1]; exact hstep)

/-- Re-establishing the path-BFS invariant across one discovery. -/
theorem lp_discovery_step (st : Store) (s t : String) (maxD : Nat)
    (cur : String) (pp : List String)
    (P Qm : List (String × List String)) (V : List String) (e : Edge)
    (hinv : LpInv st s t maxD (P ++ [(cur, pp)]) Qm V P)
    (hlen : pp.length ≤ maxD)
    (hnr : ∀ q ∈ P ++ [(cur, pp)], maxD < q.2.length ∨ q.1 ≠ t)
    (hes : e ∈ st.edges ∧ e.edgeType = "learning_pathway" ∧
      e.sourceEntityId = cur)
    (hnbV : e.targetEntityId ∉ V) :
    LpInv st s t maxD (P ++ [(cur, pp)])
      (Qm ++ [(e.targetEntityId, pp ++ [e.targetEntityId])])
      (V ++ [e.targetEntityId]) P := by
  have hcurP : (cur, pp) ∈ (P ++ [(cur, pp)]) ++ Qm :=
    List.mem_append_left _ (List.mem_append_right _ (by simp))
  have hstep : lpStep st cur e.targetEntityId :=
    ⟨e, hes.1, hes.2.1, hes.2.2, rfl⟩
  have hppok : isLearningPath st pp s cur := hinv.path_ok (cur, pp) hcurP
  have hppne : pp ≠ [] := isLearningPath_ne_nil hppok
  have hnewok : isLearningPath st (pp ++ [e.targetEntityId]) s
      e.targetEntityId := by
    refine ⟨?_, List.getLast?_concat _, ?_⟩
    · cases pp with
      | nil => exact absurd rfl hppne
      | cons a as =>
        have := hppok.1
        simpa using this
    · rw [List.chain'_append]
      refine ⟨hppok.2.2, List.chain'_singleton _, ?_⟩
      intro x hx y hy
      have hx2 : cur = x := by
        have := hppok.2.1
        rw [this] at hx
        simpa using hx
      have hy2 : e.targetEntityId = y := by simpa using hy
      rw [← hx2, ← hy2]
      exact hstep
  have hPle : ∀ p ∈ P ++ [(cur, pp)], p.2.length ≤ pp.length := by
    have hs := hinv.len_sorted
    rw [List.map_append] at hs
    obtain ⟨hs1, _, _⟩ := List.pairwise_append.mp hs
    rw [List.map_append] at hs1
    obtain ⟨_, _, hcross⟩ := List.pairwise_append.mp hs1
    intro p hp
    rcases List.mem_append.mp hp with hp | hp
    · exact hcross p.2.length (List.mem_map_of_mem _ hp) pp.length (by simp)
    · have hp2 : p = (cur, pp) := by simpa using hp
      rw [hp2]
  have hQle : ∀ q ∈ Qm, q.2.length ≤ pp.length + 1 := by
    intro q hq
    exact hinv.two_level q hq (cur, pp) (by rw [List.getLast?_concat]; rfl)
  constructor
  case conserve =>
    rw [← List.append_assoc, List.map_append, ← hinv.conserve]
    rfl
  case vnodup =>
    rw [List.nodup_append]
    refine ⟨hinv.vnodup, List.nodup_singleton _, ?_⟩
    intro a ha ha2
    have : a = e.targetEntityId := by simpa using ha2
    subst this
    exact hnbV ha
  case start_mem =>
    rcases List.mem_append.mp hinv.start_mem with h | h
    · exact List.mem_append_left _ h
    · exact List.mem_append_right _ (List.mem_append_left _ h)
  case init_q =>
    intro h
    exact absurd h (by simp)
  case path_ok =>
    intro q hq
    rw [← List.append_assoc] at hq
    rcases List.mem_append.mp hq with h | h
    · exact hinv.path_ok q h
    · have hq2 : q = (e.targetEntityId, pp ++ [e.targetEntityId]) := by
        simpa using h
      rw [hq2]
      exact hnewok
  case path_min =>
    intro q hq p2 hp2
    rw [← List.append_assoc] at hq
    rcases List.mem_append.mp hq with h | h
    · exact hinv.path_min q h p2 hp2
    · have hq2 : q = (e.targetEntityId, pp ++ [e.targetEntityId]) := by
        simpa using h
      subst hq2
      simp only [List.length_append, List.length_singleton]
      by_contra hcon
      push_neg at hcon
      obtain ⟨pm, hpm, hpmle, hpmmin⟩ :=
        exists_minimal_path st s p2.length p2 _ rfl hp2
      have := lp_minimal_le_mem st s t maxD cur pp P Qm V hinv hlen hnr
        _ pm hpm hpmmin (by omega)
      exact hnbV this
  case len_sorted =>
    rw [← List.append_assoc, List.map_append]
    refine List.pairwise_append.mpr ⟨hinv.len_sorted, by simp, ?_⟩
    intro a ha b hb
    have hb2 : b = pp.length + 1 := by simpa using hb
    rw [List.map_append] at ha
    rcases List.mem_append.mp ha with h | h
    · obtain ⟨p, hp, hpa⟩ := List.mem_map.mp h
      have := hPle p hp
      omega
    · obtain ⟨p, hp, hpa⟩ := List.mem_map.mp h
      have := hQle p hp
      omega
  case two_level =>
    intro q hq p hp
    rw [List.getLast?_concat] at hp
    have hp2 : (cur, pp) = p := by simpa using hp
    subst hp2
    rcases List.mem_append.mp hq with h | h
    · exact hQle q h
    · have : q = (e.targetEntityId, pp ++ [e.targetEntityId]) := by
        simpa using h
      rw [this]
      simp
  case expanded =>
    intro q hq hql hqt v hRv
    exact List.mem_append_left _ (hinv.expanded q hq hql hqt v hRv)
  case frontier =>
    intro v p2 hp2 hmin q hq hdq
    rw [← List.append_assoc] at hq
    rcases List.mem_append.mp hq with h | h
    · exact List.mem_append_left _ (hinv.frontier v p2 hp2 hmin q h hdq)
    · have hq2 : q = (e.targetEntityId, pp ++ [e.targetEntityId]) := by
        simpa using h
      subst hq2
      simp only [List.length_append, List.length_singleton] at hdq
      have : v ∈ V :=
        lp_minimal_le_mem st s t maxD cur pp P Qm V hinv hlen hnr
          v p2 hp2 hmin (by omega)
      exact List.mem_append_left _ this

/-- Popping the front queue entry in the path BFS. -/
theorem lp_pop_step (st : Store) (s t : String) (maxD : Nat)
    (cur : String) (pp : List String)
    (P rest : List (String × List String)) (V : List String)
    (hinv : LpInv st s t maxD P ((cur, pp) :: rest) V P) :
    LpInv st s t maxD (P ++ [(cur, pp)]) rest V P := by
  have hQ : (P ++ [(cur, pp)]) ++ rest = P ++ ((cur, pp) :: rest) := by simp
  constructor
  case conserve => rw [hQ]; exact hinv.conserve
  case vnodup => exact hinv.vnodup
  case start_mem => rw [hQ]; exact hinv.start_mem
  case init_q => intro h; exact absurd h (by simp)
  case path_ok => rw [hQ]; exact hinv.path_ok
  case path_min => rw [hQ]; exact hinv.path_min
  case len_sorted => rw [hQ]; exact hinv.len_sorted
  case two_level =>
    intro q hq p hp
    rw [List.getLast?_concat] at hp
    have hp2 : (cur, pp) = p := by simpa using hp
    subst hp2
    rcases hP : P.getLast? with _ | p₀
    · have hPnil : P = [] := by
        cases P with
        | nil => rfl
        | cons a as => simp [List.getLast?_eq_none_iff] at hP
      have hsing := hinv.init_q hPnil
      have hrest : rest = [] := by
        have := congrArg List.tail hsing
        simpa using this
      rw [hrest] at hq
      exact absurd hq (List.not_mem_nil q)
    · have h1 := hinv.two_level q (List.mem_cons_of_mem _ hq) p₀
        (by rw [hP]; rfl)
      have hp₀P : p₀ ∈ P := List.mem_of_mem_getLast? (by rw [hP]; rfl)
      have hple : p₀.2.length ≤ pp.length := by
        have hs := hinv.len_sorted
        rw [List.map_append] at hs
        obtain ⟨_, _, hcross⟩ := List.pairwise_append.mp hs
        exact hcross p₀.2.length (List.mem_map_of_mem _ hp₀P)
          pp.length (by simp)
      have hred : ((cur, pp) : String × List String).2.length = pp.length := rfl
      omega
  case expanded => exact hinv.expanded
  case frontier =>
    intro v p2 h1 h2 q hq hdq
    rw [hQ] at hq
    exact hinv.frontier v p2 h1 h2 q hq hdq

/-- The path-BFS invariant at initialisation. -/
theorem lp_init_inv (st : Store) (s t : String) (maxD : Nat) :
    LpInv st s t maxD [] [(s, [s])] [s] [] := by
  constructor
  case conserve => simp
  case vnodup => simp
  case start_mem => simp
  case init_q => intro _; rfl
  case path_ok =>
    intro q hq
    have hq2 : q = (s, [s]) := by simpa using hq
    subst hq2
    exact ⟨rfl, rfl, List.chain'_singleton _⟩
  case path_min =>
    intro q hq p2 hp2
    have hq2 : q = (s, [s]) := by simpa using hq
    subst hq2
    simpa using isLearningPath_length_pos hp2
  case len_sorted => simp
  case two_level =>
    intro q hq p hp
    simp at hp
  case expanded =>
    intro q hq
    exact absurd hq (List.not_mem_nil q)
  case frontier =>
    intro v p2 hp2 hmin q hq hdq
    have hq2 : q = (s, [s]) := by simpa using hq
    rw [hq2] at hdq
    simp only [List.length_singleton] at hdq
    have := isLearningPath_length_pos hp2
    omega

/-- The edge loop of the path BFS preserves the invariant and ends with the
popped entry fully expanded. -/
theorem flpProcess_spec (st : Store) (s t : String) (maxD : Nat)
    (cur : String) (pp : List String)
    (hlen : pp.length ≤ maxD) :
    ∀ (es : List Edge) (Qm : List (String × List String)) (V : List String)
      (P : List (String × List String)),
      LpInv st s t maxD (P ++ [(cur, pp)]) Qm V P →
      (∀ q ∈ P ++ [(cur, pp)], maxD < q.2.length ∨ q.1 ≠ t) →
      (∀ e ∈ es, e ∈ st.edges ∧ e.edgeType = "learning_pathway" ∧
        e.sourceEntityId = cur) →
      (∀ v, lpStep st cur v →
        (∃ e ∈ es, e.targetEntityId = v) ∨ v ∈ V) →
      LpInv st s t maxD (P ++ [(cur, pp)]) (flpProcess pp es Qm V).1
        (flpProcess pp es Qm V).2 (P ++ [(cur, pp)]) := by
  intro es
  induction es with
  | nil =>
    intro Qm V P hinv hnr _ hcov
    simp only [flpProcess]
    refine ⟨hinv.conserve, hinv.vnodup, hinv.start_mem, hinv.init_q,
      hinv.path_ok, hinv.path_min, hinv.len_sorted, hinv.two_level,
      ?_, hinv.frontier⟩
    intro q hq hql hqt v hRv
    rcases List.mem_append.mp hq with h | h
    · exact hinv.expanded q h hql hqt v hRv
    · have hq2 : q = (cur, pp) := by simpa using h
      subst hq2
      rcases hcov v hRv with ⟨e, he, _⟩ | h2
      · exact absurd he (List.not_mem_nil e)
      · exact h2
  | cons e es ih =>
    intro Qm V P hinv hnr hes hcov
    by_cases hc : (V.contains e.targetEntityId : Bool) = true
    · have hstep : flpProcess pp (e :: es) Qm V = flpProcess pp es Qm V := by
        simp only [flpProcess]
        rw [if_pos hc]
      rw [hstep]
      refine ih Qm V P hinv hnr
        (fun e2 h2 => hes e2 (List.mem_cons_of_mem _ h2)) ?_
      intro v hRv
      rcases hcov v hRv with ⟨e2, he2, hv2⟩ | h2
      · rcases List.mem_cons.mp he2 with rfl | h3
        · refine Or.inr ?_
          rw [← hv2]
          simpa using hc
        · exact Or.inl ⟨e2, h3, hv2⟩
      · exact Or.inr h2
    · have hstep : flpProcess pp (e :: es) Qm V =
          flpProcess pp es (Qm ++ [(e.targetEntityId, pp ++ [e.targetEntityId])])
            (V ++ [e.targetEntityId]) := by
        simp only [flpProcess]
        rw [if_neg hc]
      rw [hstep]
      have hnbV : e.targetEntityId ∉ V := by
        intro hm
        exact hc (by simpa using hm)
      have hmid := lp_discovery_step st s t maxD cur pp P Qm V e hinv hlen hnr
        (hes e (List.mem_cons_self _ _)) hnbV
      refine ih _ _ P hmid hnr
        (fun e2 h2 => hes e2 (List.mem_cons_of_mem _ h2)) ?_
      intro v hRv
      rcases hcov v hRv with ⟨e2, he2, hv2⟩ | h2
      · rcases List.mem_cons.mp he2 with rfl | h3
        · exact Or.inr (by rw [← hv2]; exact List.mem_append_right _ (by simp))
        · exact Or.inl ⟨e2, h3, hv2⟩
      · exact Or.inr (List.mem_append_left _ h2)

/-- Once the queue is empty, every node whose minimal learning path fits in
the depth budget has been visited. -/
theorem lp_all_min_in_V (st : Store) (s t : String) (maxD : Nat)
    (P : List (String × List String)) (V : List String)
    (hinv : LpInv st s t maxD P [] V P)
    (hnr : ∀ q ∈ P, maxD < q.2.length ∨ q.1 ≠ t) :
    ∀ (n : Nat) (v : String) (pm : List String),
      isLearningPath st pm s v →
      (∀ p3, isLearningPath st p3 s v → pm.length ≤ p3.length) →
      pm.length = n → n ≤ maxD → v ∈ V := by
  intro n
  induction n using Nat.strong_induction_on with
  | _ n ih =>
    intro v pm hpm hmin hlenn hle
    by_cases hone : pm.length = 1
    · obtain ⟨rfl, -⟩ := isLearningPath_singleton hpm hone
      rw [hinv.conserve]
      exact List.mem_map_of_mem _ hinv.start_mem
    · have h2 : 2 ≤ pm.length := by
        have := isLearningPath_length_pos hpm
        omega
      obtain ⟨p3, w, hpe, hp3, hstep, hlen3⟩ := isLearningPath_decompose hpm h2
      obtain ⟨pw, hpw, hpwle, hpwmin⟩ :=
        exists_minimal_path st s p3.length p3 w rfl hp3
      have hwV : w ∈ V := ih pw.length (by omega) w pw hpw hpwmin rfl (by omega)
      obtain ⟨q, hqmem, hq1⟩ : ∃ q ∈ P ++ ([] : List (String × List String)),
          q.1 = w := by
        rw [hinv.conserve] at hwV
        obtain ⟨q, hq, hq1⟩ := List.mem_map.mp hwV
        exact ⟨q, hq, hq1⟩
      have hqok := hinv.path_ok q hqmem
      have hqmin := hinv.path_min q hqmem
      rw [hq1] at hqok hqmin
      have hq2 : q.2.length = pw.length :=
        le_antisymm (hqmin pw hpw) (hpwmin q.2 hqok)
      have hqP : q ∈ P := by simpa using hqmem
      have hqle : q.2.length ≤ maxD := by omega
      have hqt : q.1 ≠ t := by
        rcases hnr q hqP with h | h
        · exact absurd hqle (not_le.mpr h)
        · exact h
      exact hinv.expanded q hqP hqle hqt v (by rw [hq1]; exact hstep)

/-- An exhausted queue with no qualifying pop means every learning path to
the target overruns the depth budget. -/
theorem lp_exhausted (st : Store) (s t : String) (maxD : Nat)
    (P : List (String × List String)) (V : List String)
    (hinv : LpInv st s t maxD P [] V P)
    (hnr : ∀ q ∈ P, maxD < q.2.length ∨ q.1 ≠ t) :
    ∀ p2, isLearningPath st p2 s t → maxD < p2.length := by
  intro p2 hp2
  by_contra hcon
  push_neg at hcon
  obtain ⟨pm, hpm, hpmle, hpmmin⟩ :=
    exists_minimal_path st s p2.length p2 t rfl hp2
  have htV : t ∈ V :=
    lp_all_min_in_V st s t maxD P V hinv hnr pm.length t pm hpm hpmmin rfl
      (by omega)
  obtain ⟨q, hqmem, hq1⟩ : ∃ q ∈ P ++ ([] : List (String × List String)),
      q.1 = t := by
    rw [hinv.conserve] at htV
    obtain ⟨q, hq, hq1⟩ := List.mem_map.mp htV
    exact ⟨q, hq, hq1⟩
  have hqok := hinv.path_ok q hqmem
  have hqmin := hinv.path_min q hqmem
  rw [hq1] at hqok hqmin
  have hqP : q ∈ P := by simpa using hqmem
  rcases hnr q hqP with h | h
  · have := hqmin p2 hp2
    omega
  · exact h hq1

/-- Running the path BFS to a result: a returned path is a shortest
learning path within the depth budget, and a `none` result means every
learning path to the target overruns the budget. -/
theorem flpAux_spec (st : Store) (s t : String) (maxD : Nat) :
    ∀ (fuel : Nat) (Q : List (String × List String)) (V : List String)
      (P : List (String × List String)),
      LpInv st s t maxD P Q V P →
      (∀ q ∈ P, maxD < q.2.length ∨ q.1 ≠ t) →
      ∀ r, flpAux st t maxD fuel Q V = some r →
        (∀ p, r = some p →
          isLearningPath st p s t ∧ p.length ≤ maxD ∧
          ∀ p2, isLearningPath st p2 s t → p.length ≤ p2.length) ∧
        (r = none → ∀ p2, isLearningPath st p2 s t → maxD < p2.length) := by
  intro fuel
  induction fuel with
  | zero =>
    intro Q V P hinv hnr r hr
    cases Q with
    | nil =>
      have hre : (none : Option (List String)) = r := by
        simpa [flpAux] using hr
      subst hre
      exact ⟨fun p hp => Option.noConfusion hp,
        fun _ => lp_exhausted st s t maxD P V hinv hnr⟩
    | cons q rest => simp [flpAux] at hr
  | succ fuel ih =>
    intro Q V P hinv hnr r hr
    cases Q with
    | nil =>
      have hre : (none : Option (List String)) = r := by
        simpa [flpAux] using hr
      subst hre
      exact ⟨fun p hp => Option.noConfusion hp,
        fun _ => lp_exhausted st s t maxD P V hinv hnr⟩
    | cons qk rest =>
      obtain ⟨cur, pp⟩ := qk
      by_cases hd : maxD < pp.length
      · have hr2 : flpAux st t maxD fuel rest V = some r := by
          simp only [flpAux] at hr
          rwa [if_pos hd] at hr
        have hmid := lp_pop_step st s t maxD cur pp P rest V hinv
        have hfull : LpInv st s t maxD (P ++ [(cur, pp)]) rest V
            (P ++ [(cur, pp)]) := by
          refine ⟨hmid.conserve, hmid.vnodup, hmid.start_mem, hmid.init_q,
            hmid.path_ok, hmid.path_min, hmid.len_sorted, hmid.two_level,
            ?_, hmid.frontier⟩
          intro q hq hql hqt v hRv
          rcases List.mem_append.mp hq with h | h
          · exact hmid.expanded q h hql hqt v hRv
          · have hq2 : q = (cur, pp) := by simpa using h
            rw [hq2] at hql
            exact absurd hql (not_le.mpr hd)
        have hnr2 : ∀ q ∈ P ++ [(cur, pp)],
            maxD < q.2.length ∨ q.1 ≠ t := by
          intro q hq
          rcases List.mem_append.mp hq with h | h
          · exact hnr q h
          · have hq2 : q = (cur, pp) := by simpa using h
            rw [hq2]
            exact Or.inl hd
        exact ih rest V (P ++ [(cur, pp)]) hfull hnr2 r hr2
      · push_neg at hd
        have hcurP : (cur, pp) ∈ (P ++ [(cur, pp)]) ++ rest :=
          List.mem_append_left _ (List.mem_append_right _ (by simp))
        have hmid := lp_pop_step st s t maxD cur pp P rest V hinv
        by_cases hct : cur = t
        · have hr2 : some (some pp) = some r := by
            simp only [flpAux] at hr
            rw [if_neg (not_lt.mpr hd)] at hr
            rw [if_pos (by simp [hct])] at hr
            exact hr
          have hre : some pp = r := by
            injection hr2
          subst hre
          have hok := hmid.path_ok (cur, pp) hcurP
          have hmin := hmid.path_min (cur, pp) hcurP
          rw [hct] at hok hmin
          refine ⟨?_, fun hc => Option.noConfusion hc⟩
          intro p hp
          have hpe : pp = p := by injection hp
          subst hpe
          exact ⟨hok, hd, hmin⟩
        · have hnr2 : ∀ q ∈ P ++ [(cur, pp)],
              maxD < q.2.length ∨ q.1 ≠ t := by
            intro q hq
            rcases List.mem_append.mp hq with h | h
            · exact hnr q h
            · have hq2 : q = (cur, pp) := by simpa using h
              rw [hq2]
              exact Or.inr hct
          have hcov : ∀ v, lpStep st cur v →
              (∃ e ∈ outgoingLearningEdges st cur, e.targetEntityId = v) ∨
                v ∈ V := by
            intro v hRv
            exact Or.inl (mem_outgoingLearningEdges_complete st cur v hRv)
          have hspec := flpProcess_spec st s t maxD cur pp hd
            (outgoingLearningEdges st cur) rest V P hmid hnr2
            (mem_outgoingLearningEdges_sound st cur) hcov
          have hr2 : flpAux st t maxD fuel
              (flpProcess pp (outgoingLearningEdges st cur) rest V).1
              (flpProcess pp (outgoingLearningEdges st cur) rest V).2
              = some r := by
            simp only [flpAux] at hr
            rw [if_neg (not_lt.mpr hd)] at hr
            rw [if_neg (by simp [hct])] at hr
            exact hr
          exact ih _ _ (P ++ [(cur, pp)]) hspec hnr2 r hr2

/-! Fuel sufficiency for the path BFS: each discovery consumes a fresh edge
endpoint. -/

theorem flpProcess_fuel (st : Store) (U : Finset String)
    (hU : ∀ e ∈ st.edges, e.sourceEntityId ∈ U ∧ e.targetEntityId ∈ U) :
    ∀ (es : List Edge), (∀ e ∈ es, e ∈ st.edges) →
    ∀ (pp : List String) (Qm : List (String × List String))
      (V : List String),
      (flpProcess pp es Qm V).1.length +
        (U \ (flpProcess pp es Qm V).2.toFinset).card ≤
      Qm.length + (U \ V.toFinset).card := by
  intro es
  induction es with
  | nil =>
    intro _ pp Qm V
    simp [flpProcess]
  | cons e es ih =>
    intro hmem pp Qm V
    by_cases hc : (V.contains e.targetEntityId : Bool) = true
    · have hstep : flpProcess pp (e :: es) Qm V = flpProcess pp es Qm V := by
        simp only [flpProcess]
        rw [if_pos hc]
      rw [hstep]
      exact ih (fun e2 h2 => hmem e2 (List.mem_cons_of_mem _ h2)) pp Qm V
    · have hstep : flpProcess pp (e :: es) Qm V =
          flpProcess pp es
            (Qm ++ [(e.targetEntityId, pp ++ [e.targetEntityId])])
            (V ++ [e.targetEntityId]) := by
        simp only [flpProcess]
        rw [if_neg hc]
      rw [hstep]
      have h1 := ih (fun e2 h2 => hmem e2 (List.mem_cons_of_mem _ h2)) pp
        (Qm ++ [(e.targetEntityId, pp ++ [e.targetEntityId])])
        (V ++ [e.targetEntityId])
      have hnbU : e.targetEntityId ∈ U :=
        (hU e (hmem e (List.mem_cons_self _ _))).2
      have hnbV : e.targetEntityId ∉ V := by
        intro hm
        exact hc (by simpa using hm)
      have hsub : U \ (V ++ [e.targetEntityId]).toFinset ⊆
          U \ V.toFinset := by
        apply Finset.sdiff_subset_sdiff (le_refl U)
        intro a ha
        rw [List.mem_toFinset] at ha
        rw [List.mem_toFinset]
        exact List.mem_append_left _ ha
      have hlt : (U \ (V ++ [e.targetEntityId]).toFinset).card <
          (U \ V.toFinset).card := by
        apply Finset.card_lt_card
        rw [Finset.ssubset_iff_of_subset hsub]
        refine ⟨e.targetEntityId, ?_, ?_⟩
        · rw [Finset.mem_sdiff, List.mem_toFinset]
          exact ⟨hnbU, hnbV⟩
        · rw [Finset.mem_sdiff, List.mem_toFinset]
          intro hcontra
          exact hcontra.2 (List.mem_append_right _ (by simp))
      have hlen :
          (Qm ++ [(e.targetEntityId, pp ++ [e.targetEntityId])]).length =
          Qm.length + 1 := by simp
      omega

theorem flpAux_fuel (st : Store) (t : String) (maxD : Nat)
    (U : Finset String)
    (hU : ∀ e ∈ st.edges, e.sourceEntityId ∈ U ∧ e.targetEntityId ∈ U) :
    ∀ (fuel : Nat) (Q : List (String × List String)) (V : List String),
      Q.length + (U \ V.toFinset).card ≤ fuel →
      flpAux st t maxD fuel Q V ≠ none := by
  intro fuel
  induction fuel with
  | zero =>
    intro Q V hb
    cases Q with
    | nil => simp [flpAux]
    | cons q rest => simp at hb
  | succ fuel ih =>
    intro Q V hb
    cases Q with
    | nil => simp [flpAux]
    | cons qk rest =>
      obtain ⟨cur, pp⟩ := qk
      by_cases hd : maxD < pp.length
      · simp only [flpAux]
        rw [if_pos hd]
        apply ih
        simp only [List.length_cons] at hb
        omega
      · by_cases hct : cur = t
        · simp only [flpAux]
          rw [if_neg hd, if_pos (by simp [hct])]
          simp
        · simp only [flpAux]
          rw [if_neg hd, if_neg (by simp [hct])]
          apply ih
          have h1 := flpProcess_fuel st U hU (outgoingLearningEdges st cur)
            (fun e he => (mem_outgoingLearningEdges_sound st cur e he).1)
            pp rest V
          simp only [List.length_cons] at hb
          omega

theorem flpAux_run_isSome (st : Store) (s t : String) (maxD : Nat) :
    flpAux st t maxD (2 * st.edges.length + 1) [(s, [s])] [s] ≠ none := by
  apply flpAux_fuel st t maxD (bfsUniv st s)
  · intro e he
    obtain ⟨h1, h2⟩ := mem_edgeEndpoints st e he
    exact ⟨Finset.mem_insert_of_mem h1, Finset.mem_insert_of_mem h2⟩
  · have hsub : bfsUniv st s \ ([s] : List String).toFinset ⊆
        edgeEndpoints st := by
      intro a ha
      rw [Finset.mem_sdiff, List.mem_toFinset] at ha
      obtain ⟨h1, h2⟩ := ha
      unfold bfsUniv at h1
      rcases Finset.mem_insert.mp h1 with rfl | h3
      · exact absurd (by simp) h2
      · exact h3
    have := Finset.card_le_card hsub
    have := card_edgeEndpoints st
    simp only [List.length_cons, List.length_nil]
    omega

/-- The id-level result of `find_learning_path`: a returned path is a
shortest stored learning path with node count within the budget; `None`
means every stored learning path to the target has node count above the
budget. -/
theorem findLearningPathIds_spec (st : Store) (s t : String) (maxD : Nat) :
    (∀ ids, findLearningPathIds st s t maxD = some ids →
      isLearningPath st ids s t ∧ ids.length ≤ maxD ∧
      ∀ p2, isLearningPath st p2 s t → ids.length ≤ p2.length) ∧
    (findLearningPathIds st s t maxD = none →
      ∀ p2, isLearningPath st p2 s t → maxD < p2.length) := by
  have hne := flpAux_run_isSome st s t maxD
  rcases hr : flpAux st t maxD (2 * st.edges.length + 1) [(s, [s])] [s]
    with _ | r
  · exact absurd hr hne
  · have hspec := flpAux_spec st s t maxD (2 * st.edges.length + 1)
      [(s, [s])] [s] [] (lp_init_inv st s t maxD)
      (fun q hq => absurd hq (List.not_mem_nil q)) r hr
    have heq : findLearningPathIds st s t maxD = r := by
      unfold findLearningPathIds
      rw [hr]
    constructor
    · intro ids hids
      rw [heq] at hids
      exact hspec.1 ids hids
    · intro hnone
      rw [heq] at hnone
      exact hspec.2 hnone

/-- C5 counterexample: on the single-edge store A→B, the list [A, B] is a
stored learning path of exactly 1 hop (node count 2), yet
`find_learning_path("A", "B", max_depth = 1)` returns no path — the
`len(path) > max_depth` guard discards the two-node path before the target
test, so a shortest path of exactly `maxDepth` hops is NOT returned. -/
theorem c5_counterexample :
    isLearningPath lpStore ["A", "B"] "A" "B" ∧
    (["A", "B"] : List String).length = 1 + 1 ∧
    findLearningPath lpStore "A" "B" 1 = none := by
  refine ⟨⟨rfl, rfl, ?_⟩, rfl, ?_⟩
  · rw [List.chain'_cons]
    exact ⟨⟨mkLpEdge "A" "B" (8/10), by simp [lpStore], rfl, rfl, rfl⟩,
      List.chain'_singleton _⟩
  · rfl

/-- C5 (amended).  `find_learning_path(startId, targetId, maxDepth)` runs a
BFS over directed `learning_pathway` edges tracking the full path per queue
entry, and returns the first-found shortest path as an ordered entity list
whenever a path of at most `maxDepth − 1` hops (node count ≤ `maxDepth`)
exists; it returns no path exactly when every stored path from start to
target has node count above `maxDepth` — in particular a shortest path of
exactly `maxDepth` hops is dropped by the `len(path) > max_depth` guard.
Concretely, on the chain A→B→C with `maxDepth = 3` the entity list
[A, B, C] is returned, while on the single edge A→B with `maxDepth = 1`
the answer is no path despite the 1-hop path existing. -/
theorem c5_amended_learning_path :
    (∀ (st : Store) (s t : String) (maxD : Nat),
      (∀ p, findLearningPath st s t maxD = some p →
        ∃ ids, findLearningPathIds st s t maxD = some ids ∧
          p = ids.filterMap (getEntity st) ∧
          isLearningPath st ids s t ∧ ids.length ≤ maxD ∧
          ∀ p2, isLearningPath st p2 s t → ids.length ≤ p2.length) ∧
      (findLearningPath st s t maxD = none →
        ∀ p2, isLearningPath st p2 s t → maxD < p2.length)) ∧
    findLearningPath lpStore3 "A" "C" 3 =
      some [mkEnt "A", mkEnt "B", mkEnt "C"] ∧
    findLearningPath lpStore "A" "B" 1 = none := by
  refine ⟨?_, rfl, rfl⟩
  intro st s t maxD
  obtain ⟨hsome, hnone⟩ := findLearningPathIds_spec st s t maxD
  constructor
  · intro p hp
    unfold findLearningPath at hp
    rcases hids : findLearningPathIds st s t maxD with _ | ids
    · rw [hids] at hp
      exact absurd hp (by simp)
    · rw [hids] at hp
      have hpe : p = ids.filterMap (getEntity st) := by
        obtain ⟨a, ha1, ha2⟩ := Option.map_eq_some'.mp hp
        have ha3 : a = ids := by
          have h4 : ids = a := by injection ha1
          exact h4.symm
        rw [← ha2, ha3]
      obtain ⟨h1, h2, h3⟩ := hsome ids hids
      exact ⟨ids, rfl, hpe, h1, h2, h3⟩
  · intro hp
    apply hnone
    unfold findLearningPath at hp
    rcases hids : findLearningPathIds st s t maxD with _ | ids
    · rfl
    · rw [hids] at hp
      exact absurd hp (by simp)

/-- C5 witness: the general statement applied to the concrete chain store
A→B→C at depth budget 3 and its returned path. -/
theorem c5_amended_learning_path_witness :
    ∃ ids, findLearningPathIds lpStore3 "A" "C" 3 = some ids ∧
      [mkEnt "A", mkEnt "B", mkEnt "C"] = ids.filterMap (getEntity lpStore3) ∧
      isLearningPath lpStore3 ids "A" "C" ∧ ids.length ≤ 3 ∧
      ∀ p2, isLearningPath lpStore3 p2 "A" "C" → ids.length ≤ p2.length :=
  (c5_amended_learning_path.1 lpStore3 "A" "C" 3).1
    [mkEnt "A", mkEnt "B", mkEnt "C"] rfl

end Luno
